import Mathlib

/-!
Verification of the sshtab core: tokenizer/validator, base64 codec,
history store, alias store, non-interactive pick, and picker state machine.
Byte strings are modelled as `List Nat` with each element one byte.
-/

/-- Bytes of a Lean string literal, used to write concrete test inputs. -/
def strBytes (s : String) : List Nat := s.data.map Char.toNat

/-! ## Validator / Tokenizer (tokenize.cpp) -/

/-- `ContainsControlChars`: some byte is < 0x20 or == 0x7F. -/
def ContainsControlChars (input : List Nat) : Bool :=
  input.any (fun c => c < 32 || c = 127)

/-- `ContainsForbiddenMetachars`: some byte is one of `; | & ` $ ( ) < >`. -/
def ContainsForbiddenMetachars (input : List Nat) : Bool :=
  input.any (fun c =>
    c = 59 || c = 124 || c = 38 || c = 96 || c = 36 || c = 40 || c = 41 || c = 60 || c = 62)

/-- C-locale `isspace` on a byte: space, \t, \n, \v, \f, \r. -/
def isSpaceC (c : Nat) : Bool :=
  c = 32 || c = 9 || c = 10 || c = 11 || c = 12 || c = 13

/-- Tokenizer state: outside quotes, inside single quotes, inside double quotes. -/
inductive TokState where
  | normal
  | single
  | double
deriving DecidableEq, Repr

/-- The scanning loop of `TokenizeArgs`: input bytes, current state, current
partial token.  Returns `none` on an unterminated quote. -/
def tokLoop : List Nat → TokState → List Nat → Option (List (List Nat))
  | [], TokState.normal, cur => some (if cur = [] then [] else [cur])
  | [], TokState.single, _ => none
  | [], TokState.double, _ => none
  | c :: rest, TokState.normal, cur =>
    if c = 92 then
      match rest with
      | [] => some [cur ++ [92]]
      | d :: rest2 => tokLoop rest2 TokState.normal (cur ++ [d])
    else if c = 39 then tokLoop rest TokState.single cur
    else if c = 34 then tokLoop rest TokState.double cur
    else if isSpaceC c then
      match tokLoop rest TokState.normal [] with
      | none => none
      | some ts => some (if cur = [] then ts else cur :: ts)
    else tokLoop rest TokState.normal (cur ++ [c])
  | c :: rest, TokState.single, cur =>
    if c = 39 then tokLoop rest TokState.normal cur
    else tokLoop rest TokState.single (cur ++ [c])
  | c :: rest, TokState.double, cur =>
    if c = 34 then tokLoop rest TokState.normal cur
    else if c = 92 then
      match rest with
      | [] => none
      | d :: rest2 => tokLoop rest2 TokState.double (cur ++ [d])
    else tokLoop rest TokState.double (cur ++ [c])

/-- `TokenizeArgs`: split an argument string into tokens. -/
def TokenizeArgs (input : List Nat) : Option (List (List Nat)) :=
  tokLoop input TokState.normal []

/-- Quote-state scan: the state the tokenizer is in when the input ends,
ignoring token accumulation. -/
def quoteScan : List Nat → TokState → TokState
  | [], st => st
  | c :: rest, TokState.normal =>
    if c = 92 then
      match rest with
      | [] => TokState.normal
      | _ :: rest2 => quoteScan rest2 TokState.normal
    else if c = 39 then quoteScan rest TokState.single
    else if c = 34 then quoteScan rest TokState.double
    else quoteScan rest TokState.normal
  | c :: rest, TokState.single =>
    if c = 39 then quoteScan rest TokState.normal
    else quoteScan rest TokState.single
  | c :: rest, TokState.double =>
    if c = 34 then quoteScan rest TokState.normal
    else if c = 92 then
      match rest with
      | [] => TokState.double
      | _ :: rest2 => quoteScan rest2 TokState.double
    else quoteScan rest TokState.double

example : TokenizeArgs (strBytes "user@host -p 22") =
    some [strBytes "user@host", strBytes "-p", strBytes "22"] := by decide

example : TokenizeArgs (strBytes "user@host -i 'id file' -J \"jump host\"") =
    some [strBytes "user@host", strBytes "-i", strBytes "id file",
          strBytes "-J", strBytes "jump host"] := by decide

example : TokenizeArgs (strBytes "user@host \"unterminated") = none := by decide

example : TokenizeArgs (strBytes "''") = some [] := by decide

/-- The tokenizer loop fails exactly when the quote-state scan ends in a
quoted state. -/
theorem tokLoop_eq_none_iff (l : List Nat) (st : TokState) (cur : List Nat) :
    tokLoop l st cur = none ↔ quoteScan l st ≠ TokState.normal := by
  induction l, st, cur using tokLoop.induct <;>
    try simp_all [tokLoop, quoteScan]
  all_goals rw [tokLoop.eq_def, quoteScan.eq_def]
  all_goals simp_all [isSpaceC]

/-- Every token produced by the tokenizer loop is non-empty. -/
theorem tokLoop_some_tokens_ne_nil (l : List Nat) (st : TokState) (cur : List Nat) :
    ∀ ts, tokLoop l st cur = some ts → ∀ t ∈ ts, t ≠ [] := by
  induction l, st, cur using tokLoop.induct <;> intro ts h t ht <;>
    rw [tokLoop.eq_def] at h <;>
    simp_all [isSpaceC] <;>
    subst h <;> (try split at ht) <;> simp_all <;>
    (try rcases ht with rfl | ht) <;> simp_all

/-! ## exec operation (main.cpp `CommandExec`) -/

/-- `CommandExec` given its single argument string: `none` models "return 1,
no process replacement"; `some argv` models `execvp` with that argv
(program name "ssh" followed by the tokens). -/
def CommandExec (argsString : List Nat) : Option (List (List Nat)) :=
  if ContainsControlChars argsString then none
  else if ContainsForbiddenMetachars argsString then none
  else
    match TokenizeArgs argsString with
    | none => none
    | some tokens => some (strBytes "ssh" :: tokens)

/-- C1: the exec operation refuses (no process replacement) whenever the
argument string contains control characters, or contains a forbidden
metacharacter, or fails to tokenize; each of the three conditions alone
forces rejection. -/
theorem C1_exec_refuses_unsafe (s : List Nat)
    (h : ContainsControlChars s = true ∨ ContainsForbiddenMetachars s = true ∨
      TokenizeArgs s = none) :
    CommandExec s = none := by
  unfold CommandExec
  rcases h with h | h | h
  · simp [h]
  · simp [h]
  · by_cases h1 : ContainsControlChars s = true
    · simp [h1]
    · by_cases h2 : ContainsForbiddenMetachars s = true
      · simp [h2]
      · simp only [h1, h2, if_neg, Bool.not_eq_true] at *
        simp [h1, h2, h]

/-- Witness for C1 at the concrete inputs `"a|b"` (metachar), `"a\nb"`
(control char) and `"a \"b"` (unterminated quote). -/
theorem C1_exec_refuses_unsafe_witness :
    (ContainsForbiddenMetachars (strBytes "a|b") = true ∧
      CommandExec (strBytes "a|b") = none) ∧
    (ContainsControlChars (strBytes "a\nb") = true ∧
      CommandExec (strBytes "a\nb") = none) ∧
    (TokenizeArgs (strBytes "a \"b") = none ∧
      CommandExec (strBytes "a \"b") = none) :=
  ⟨⟨by decide, C1_exec_refuses_unsafe _ (Or.inr (Or.inl (by decide)))⟩,
   ⟨by decide, C1_exec_refuses_unsafe _ (Or.inl (by decide))⟩,
   ⟨by decide, C1_exec_refuses_unsafe _ (Or.inr (Or.inr (by decide)))⟩⟩

/-- C2: the tokenizer fails exactly when the input ends inside a quoted
span, and on the spec's three examples it behaves as stated: plain
splitting, quoted spans preserved verbatim with embedded spaces, and an
unterminated quote failing. -/
theorem C2_tokenizer_spec :
    (∀ s : List Nat, TokenizeArgs s = none ↔ quoteScan s TokState.normal ≠ TokState.normal) ∧
    TokenizeArgs (strBytes "user@host -p 22") =
      some [strBytes "user@host", strBytes "-p", strBytes "22"] ∧
    TokenizeArgs (strBytes "user@host -i 'id file' -J \"jump host\"") =
      some [strBytes "user@host", strBytes "-i", strBytes "id file",
            strBytes "-J", strBytes "jump host"] ∧
    TokenizeArgs (strBytes "user@host \"unterminated") = none :=
  ⟨fun s => tokLoop_eq_none_iff s TokState.normal [],
   by decide, by decide, by decide⟩

/-- C9: tokenization never returns an empty token; in particular the
quoted empty string contributes no token, so `''` tokenizes to `[]`. -/
theorem C9_tokens_nonempty (s : List Nat) (ts : List (List Nat))
    (h : TokenizeArgs s = some ts) :
    (∀ t ∈ ts, t ≠ []) ∧ TokenizeArgs (strBytes "''") = some [] :=
  ⟨tokLoop_some_tokens_ne_nil s TokState.normal [] ts h, by decide⟩

/-- Witness for C9 at the concrete input `"a ''"`. -/
theorem C9_tokens_nonempty_witness :
    TokenizeArgs (strBytes "a ''") = some [strBytes "a"] ∧
    (∀ t ∈ [strBytes "a"], t ≠ []) ∧ TokenizeArgs (strBytes "''") = some [] :=
  ⟨by decide, C9_tokens_nonempty (strBytes "a ''") [strBytes "a"] (by decide)⟩

/-! ## Base64 codec (util.cpp) -/

/-- The base64 alphabet table "A-Za-z0-9+/" as a function of the 6-bit value. -/
def b64Char (n : Nat) : Nat :=
  if n < 26 then 65 + n
  else if n < 52 then 97 + (n - 26)
  else if n < 62 then 48 + (n - 52)
  else if n = 62 then 43
  else 47

/-- `Base64Encode`: standard padded base64 over bytes (read as unsigned
chars, hence the `% 256`). -/
def Base64Encode : List Nat → List Nat
  | b0 :: b1 :: b2 :: rest =>
    b64Char ((b0 % 256 * 65536 + b1 % 256 * 256 + b2 % 256) / 262144 % 64) ::
    b64Char ((b0 % 256 * 65536 + b1 % 256 * 256 + b2 % 256) / 4096 % 64) ::
    b64Char ((b0 % 256 * 65536 + b1 % 256 * 256 + b2 % 256) / 64 % 64) ::
    b64Char ((b0 % 256 * 65536 + b1 % 256 * 256 + b2 % 256) % 64) ::
    Base64Encode rest
  | [b0, b1] =>
    [b64Char ((b0 % 256 * 65536 + b1 % 256 * 256) / 262144 % 64),
     b64Char ((b0 % 256 * 65536 + b1 % 256 * 256) / 4096 % 64),
     b64Char ((b0 % 256 * 65536 + b1 % 256 * 256) / 64 % 64),
     61]
  | [b0] =>
    [b64Char (b0 % 256 * 65536 / 262144 % 64),
     b64Char (b0 % 256 * 65536 / 4096 % 64),
     61, 61]
  | [] => []

/-- The `decode_char` lambda of `Base64Decode`. -/
def b64DecodeVal (c : Nat) : Option Nat :=
  if 65 ≤ c ∧ c ≤ 90 then some (c - 65)
  else if 97 ≤ c ∧ c ≤ 122 then some (c - 97 + 26)
  else if 48 ≤ c ∧ c ≤ 57 then some (c - 48 + 52)
  else if c = 43 then some 62
  else if c = 47 then some 63
  else none

/-- The decoding loop of `Base64Decode`: accumulator `val`, bit balance
`valb` (starts at -8, emits a byte when ≥ 0 after adding 6), padding count
`pad`, and the `padding` seen-flag. -/
def b64DecodeLoop : List Nat → Nat → Int → Nat → Bool → Option (List Nat)
  | [], _, _, pad, _ => if pad > 2 then none else some []
  | c :: rest, val, valb, pad, padding =>
    if c = 61 then b64DecodeLoop rest val valb (pad + 1) true
    else if padding then none
    else
      match b64DecodeVal c with
      | none => none
      | some d =>
        if 0 ≤ valb + 6 then
          match b64DecodeLoop rest (val * 64 + d) (valb + 6 - 8) pad padding with
          | none => none
          | some out => some ((val * 64 + d) / 2 ^ (valb + 6).toNat % 256 :: out)
        else b64DecodeLoop rest (val * 64 + d) (valb + 6) pad padding

/-- `Base64Decode`: fails on length not a multiple of 4, then runs the loop. -/
def Base64Decode (input : List Nat) : Option (List Nat) :=
  if input.length % 4 ≠ 0 then none
  else b64DecodeLoop input 0 (-8) 0 false

example : Base64Encode (strBytes "ssh host1") = strBytes "c3NoIGhvc3Qx" := by decide
example : Base64Decode (strBytes "c3NoIGhvc3Qx") = some (strBytes "ssh host1") := by decide
example : Base64Decode (strBytes "c3No") = some (strBytes "ssh") := by decide
example : Base64Decode [65, 66] = none := by decide
example : Base64Decode [65, 61, 61, 61] = none := by decide

theorem b64DecodeVal_b64Char : ∀ m, m < 64 → b64DecodeVal (b64Char m) = some m := by decide

theorem b64Char_ne_61 : ∀ m, m < 64 → b64Char m ≠ 61 := by decide

theorem b64DecodeVal_b64Char_mod (m : Nat) :
    b64DecodeVal (b64Char (m % 64)) = some (m % 64) :=
  b64DecodeVal_b64Char _ (Nat.mod_lt _ (by norm_num))

theorem b64Char_mod_ne_61 (m : Nat) : b64Char (m % 64) ≠ 61 :=
  b64Char_ne_61 _ (Nat.mod_lt _ (by norm_num))

/-- The encoded form always has length a multiple of 4. -/
theorem base64Encode_length_mod4 (bs : List Nat) : (Base64Encode bs).length % 4 = 0 := by
  induction bs using Base64Encode.induct <;> simp_all [Base64Encode] <;> omega

/-- Decoding the encoding recovers the input bytes, for any accumulator. -/
theorem b64_roundtrip_aux :
    ∀ (bs : List Nat), (∀ b ∈ bs, b < 256) → ∀ val : Nat,
      b64DecodeLoop (Base64Encode bs) val (-8) 0 false = some bs := by
  intro bs
  induction bs using Base64Encode.induct with
  | case4 =>
    intro _ val
    simp [Base64Encode, b64DecodeLoop]
  | case3 b0 =>
    intro h val
    have hb0 : b0 < 256 := h b0 (by simp)
    simp only [Base64Encode, b64DecodeLoop, b64DecodeVal_b64Char_mod,
      b64Char_mod_ne_61, if_false]
    norm_num [b64DecodeLoop, Int.toNat_ofNat]
    simp only [show Int.toNat 4 = 4 from rfl, show Int.toNat 2 = 2 from rfl,
      show Int.toNat 0 = 0 from rfl]
    norm_num
    omega
  | case2 b0 b1 =>
    intro h val
    have hb0 : b0 < 256 := h b0 (by simp)
    have hb1 : b1 < 256 := h b1 (by simp)
    simp only [Base64Encode, b64DecodeLoop, b64DecodeVal_b64Char_mod,
      b64Char_mod_ne_61, if_false]
    norm_num [b64DecodeLoop, Int.toNat_ofNat]
    simp only [show Int.toNat 4 = 4 from rfl, show Int.toNat 2 = 2 from rfl,
      show Int.toNat 0 = 0 from rfl]
    norm_num
    omega
  | case1 b0 b1 b2 rest ih =>
    intro h val
    have hb0 : b0 < 256 := h b0 (by simp)
    have hb1 : b1 < 256 := h b1 (by simp)
    have hb2 : b2 < 256 := h b2 (by simp)
    have hrest : ∀ b ∈ rest, b < 256 := fun b hb => h b (by simp [hb])
    simp only [Base64Encode, b64DecodeLoop, b64DecodeVal_b64Char_mod,
      b64Char_mod_ne_61, if_false]
    norm_num [b64DecodeLoop, Int.toNat_ofNat, ih hrest]
    simp only [show Int.toNat 4 = 4 from rfl, show Int.toNat 2 = 2 from rfl,
      show Int.toNat 0 = 0 from rfl]
    norm_num
    omega

/-- Shared round-trip fact: decoding the encoding of a byte string
succeeds with exactly the input. -/
theorem base64_roundtrip (bs : List Nat) (h : ∀ b ∈ bs, b < 256) :
    Base64Decode (Base64Encode bs) = some bs := by
  unfold Base64Decode
  rw [if_neg (by simp [base64Encode_length_mod4])]
  exact b64_roundtrip_aux bs h 0

/-- C5: for every byte string, including empty and ones with tab, newline
or NUL bytes, decoding the encoding succeeds and returns exactly the input. -/
theorem C5_base64_roundtrip (bs : List Nat) (h : ∀ b ∈ bs, b < 256) :
    Base64Decode (Base64Encode bs) = some bs :=
  base64_roundtrip bs h

/-- Witness for C5 at a byte string containing tab, newline and NUL, and at
the empty byte string. -/
theorem C5_base64_roundtrip_witness :
    ((∀ b ∈ [9, 10, 0, 116], b < 256) ∧
      Base64Decode (Base64Encode [9, 10, 0, 116]) = some [9, 10, 0, 116]) ∧
    ((∀ b ∈ ([] : List Nat), b < 256) ∧
      Base64Decode (Base64Encode []) = some []) :=
  ⟨⟨by decide, C5_base64_roundtrip [9, 10, 0, 116] (by decide)⟩,
   ⟨by decide, C5_base64_roundtrip [] (by decide)⟩⟩

/-- Spec-side predicate: a non-alphabet, non-padding character appears
before any padding character. -/
def nonAlphabetBeforePad : List Nat → Bool
  | [] => false
  | c :: rest =>
    if c = 61 then false
    else if (b64DecodeVal c).isNone then true
    else nonAlphabetBeforePad rest

/-- Spec-side predicate: some padding character is followed by a
non-padding character. -/
def padFollowedByNonPad : List Nat → Bool
  | [] => false
  | c :: rest =>
    if c = 61 then rest.any (fun d => d ≠ 61)
    else padFollowedByNonPad rest

/-- One step of the decode loop on a padding character. -/
theorem b64DecodeLoop_cons_pad (rest : List Nat) (val : Nat) (valb : Int) (pad : Nat)
    (padding : Bool) :
    b64DecodeLoop (61 :: rest) val valb pad padding =
      b64DecodeLoop rest val valb (pad + 1) true := rfl

/-- One step of the decode loop on a non-padding character after padding. -/
theorem b64DecodeLoop_cons_nonpad_padding (c : Nat) (rest : List Nat) (val : Nat)
    (valb : Int) (pad : Nat) (hc : c ≠ 61) :
    b64DecodeLoop (c :: rest) val valb pad true = none := by
  simp [b64DecodeLoop, hc]

/-- In the padding-seen state, the loop fails exactly when a non-padding
character remains or the total padding count exceeds 2. -/
theorem b64DecodeLoop_padding_none_iff (l : List Nat) :
    ∀ val valb pad,
      (b64DecodeLoop l val valb pad true = none ↔
        (∃ d ∈ l, d ≠ 61) ∨ pad + l.count 61 > 2) := by
  induction l with
  | nil => intro val valb pad; simp [b64DecodeLoop]
  | cons c rest ih =>
    intro val valb pad
    by_cases hc : c = 61
    · subst hc
      rw [b64DecodeLoop_cons_pad, ih]
      constructor
      · rintro (⟨d, hd, hne⟩ | h)
        · exact Or.inl ⟨d, List.mem_cons_of_mem _ hd, hne⟩
        · refine Or.inr ?_
          simp [List.count_cons] at *
          omega
      · rintro (⟨d, hd, hne⟩ | h)
        · rcases List.mem_cons.mp hd with rfl | hd2
          · exact absurd rfl hne
          · exact Or.inl ⟨d, hd2, hne⟩
        · refine Or.inr ?_
          simp [List.count_cons] at *
          omega
    · rw [b64DecodeLoop_cons_nonpad_padding c rest val valb pad hc]
      simp only [true_iff]
      exact Or.inl ⟨c, List.mem_cons_self c rest, hc⟩

/-- From the initial state, the loop fails exactly when a non-alphabet
character appears before any padding, a padding character is followed by a
non-padding one, or more than two padding characters occur. -/
theorem b64DecodeLoop_none_iff (l : List Nat) :
    ∀ val valb,
      (b64DecodeLoop l val valb 0 false = none ↔
        nonAlphabetBeforePad l = true ∨ padFollowedByNonPad l = true ∨
          l.count 61 > 2) := by
  induction l with
  | nil => intro val valb; simp [b64DecodeLoop, nonAlphabetBeforePad, padFollowedByNonPad]
  | cons c rest ih =>
    intro val valb
    by_cases hc : c = 61
    · subst hc
      rw [b64DecodeLoop_cons_pad, b64DecodeLoop_padding_none_iff]
      have h1 : nonAlphabetBeforePad (61 :: rest) = false := rfl
      have h2 : padFollowedByNonPad (61 :: rest) = rest.any (fun d => d ≠ 61) := rfl
      rw [h1, h2]
      simp only [List.count_cons, List.any_eq_true, decide_eq_true_eq,
        Bool.false_eq_true, false_or]
      constructor
      · rintro (⟨d, hd, hne⟩ | h)
        · exact Or.inl ⟨d, hd, hne⟩
        · exact Or.inr (by simp at h ⊢; omega)
      · rintro (⟨d, hd, hne⟩ | h)
        · exact Or.inl ⟨d, hd, hne⟩
        · exact Or.inr (by simp at h ⊢; omega)
    · cases hd : b64DecodeVal c with
      | none =>
        have h1 : nonAlphabetBeforePad (c :: rest) = true := by
          simp [nonAlphabetBeforePad, hc, hd]
        simp [b64DecodeLoop, hc, hd, h1]
      | some d =>
        have h1 : nonAlphabetBeforePad (c :: rest) = nonAlphabetBeforePad rest := by
          simp [nonAlphabetBeforePad, hc, hd]
        have h2 : padFollowedByNonPad (c :: rest) = padFollowedByNonPad rest := by
          simp [padFollowedByNonPad, hc]
        have h3 : (c :: rest).count 61 = rest.count 61 := by
          simp [List.count_cons, hc, Ne.symm hc]
        have hstep : b64DecodeLoop (c :: rest) val valb 0 false =
            (if (0 : Int) ≤ valb + 6 then
              match b64DecodeLoop rest (val * 64 + d) (valb + 6 - 8) 0 false with
              | none => none
              | some out => some ((val * 64 + d) / 2 ^ (valb + 6).toNat % 256 :: out)
            else b64DecodeLoop rest (val * 64 + d) (valb + 6) 0 false) := by
          simp [b64DecodeLoop, hc, hd]
        rw [hstep, h1, h2, h3]
        by_cases hv : (0 : Int) ≤ valb + 6
        · rw [if_pos hv, ← ih (val * 64 + d) (valb + 6 - 8)]
          cases hx : b64DecodeLoop rest (val * 64 + d) (valb + 6 - 8) 0 false <;> simp
        · rw [if_neg hv]
          exact ih _ _

/-- C6: `Base64Decode` fails exactly on the malformed inputs the spec
lists: length not a multiple of 4, a non-alphabet character before any
padding, more than two padding characters, or a padding character followed
by a non-padding character. -/
theorem C6_decode_failure_iff (s : List Nat) :
    Base64Decode s = none ↔
      (s.length % 4 ≠ 0 ∨ nonAlphabetBeforePad s = true ∨ s.count 61 > 2 ∨
        padFollowedByNonPad s = true) := by
  unfold Base64Decode
  by_cases hl : s.length % 4 = 0
  · rw [if_neg (by simp [hl])]
    rw [b64DecodeLoop_none_iff]
    constructor
    · rintro (h | h | h)
      · exact Or.inr (Or.inl h)
      · exact Or.inr (Or.inr (Or.inr h))
      · exact Or.inr (Or.inr (Or.inl h))
    · rintro (h | h | h | h)
      · exact absurd hl h
      · exact Or.inl h
      · exact Or.inr (Or.inr h)
      · exact Or.inr (Or.inl h)
  · rw [if_pos (by simp [hl])]
    simp [hl]

/-! ## History store (history.cpp) -/

/-- The de-duplicated ranked view of one distinct command. -/
structure HistoryEntry where
  command : List Nat
  last_used : Int
  count : Nat
deriving DecidableEq, Repr

/-- The comparator of the final `std::sort` in `LoadRecentUniqueFromPath`,
as a non-strict total order: `last_used` descending, then `count`
descending, then `command` ascending (lexicographic). -/
def entryLE (a b : HistoryEntry) : Prop :=
  b.last_used < a.last_used ∨
    (a.last_used = b.last_used ∧
      (b.count < a.count ∨ (a.count = b.count ∧ a.command ≤ b.command)))

instance : DecidableRel entryLE := fun a b => by
  unfold entryLE
  exact inferInstance

instance : IsTotal HistoryEntry entryLE where
  total a b := by
    unfold entryLE
    rcases lt_trichotomy a.last_used b.last_used with h | h | h
    · exact Or.inr (Or.inl h)
    · rcases lt_trichotomy a.count b.count with h2 | h2 | h2
      · exact Or.inr (Or.inr ⟨h.symm, Or.inl h2⟩)
      · rcases le_total a.command b.command with h3 | h3
        · exact Or.inl (Or.inr ⟨h, Or.inr ⟨h2, h3⟩⟩)
        · exact Or.inr (Or.inr ⟨h.symm, Or.inr ⟨h2.symm, h3⟩⟩)
      · exact Or.inl (Or.inr ⟨h, Or.inl h2⟩)
    · exact Or.inl (Or.inl h)

instance : IsTrans HistoryEntry entryLE where
  trans a b c hab hbc := by
    unfold entryLE at *
    rcases hab with hab | ⟨hab1, hab2⟩
    · rcases hbc with hbc | ⟨hbc1, hbc2⟩
      · exact Or.inl (hbc.trans hab)
      · exact Or.inl (hbc1 ▸ hab)
    · rcases hbc with hbc | ⟨hbc1, hbc2⟩
      · exact Or.inl (hab1 ▸ hbc)
      · refine Or.inr ⟨hab1.trans hbc1, ?_⟩
        rcases hab2 with hab2 | ⟨hab3, hab4⟩
        · rcases hbc2 with hbc2 | ⟨hbc3, hbc4⟩
          · exact Or.inl (hbc2.trans hab2)
          · exact Or.inl (hbc3 ▸ hab2)
        · rcases hbc2 with hbc2 | ⟨hbc3, hbc4⟩
          · exact Or.inl (hab3 ▸ hbc2)
          · exact Or.inr ⟨hab3.trans hbc3, hab4.trans hbc4⟩

/-- `std::getline`-style split of file content into lines: the final
segment is produced only when non-empty (a trailing newline yields no
empty final line). -/
def splitLinesAux : List Nat → List Nat → List (List Nat)
  | [], cur => if cur = [] then [] else [cur]
  | c :: rest, cur =>
    if c = 10 then cur :: splitLinesAux rest []
    else splitLinesAux rest (cur ++ [c])

/-- Split content into getline lines. -/
def splitLines (content : List Nat) : List (List Nat) :=
  splitLinesAux content []

example : splitLines (strBytes "a\nbc\n") = [strBytes "a", strBytes "bc"] := by decide
example : splitLines (strBytes "a\nbc") = [strBytes "a", strBytes "bc"] := by decide
example : splitLines [] = [] := by decide

/-- Decimal digit byte. -/
def isDigit (c : Nat) : Bool := 48 ≤ c && c ≤ 57

/-- Numeric value of a list of decimal digit bytes. -/
def digitsVal (ds : List Nat) : Nat := ds.foldl (fun acc c => acc * 10 + (c - 48)) 0

/-- `std::stoll`/`std::stoi` followed by the caller's full-consumption
check (`idx == s.size()`): optional C-locale whitespace, optional sign, at
least one decimal digit, nothing after the digits, and a value within
`[lo, hi]` (out-of-range throws are caught and reported as failure). -/
def parseCppInt (s : List Nat) (lo hi : Int) : Option Int :=
  let s1 := s.dropWhile (fun c => isSpaceC c)
  let sr : Int × List Nat :=
    match s1 with
    | 43 :: rest => (1, rest)
    | 45 :: rest => (-1, rest)
    | l => (1, l)
  let ds := sr.2.takeWhile (fun c => isDigit c)
  let after := sr.2.dropWhile (fun c => isDigit c)
  if ds = [] then none
  else if after ≠ [] then none
  else
    let v : Int := sr.1 * (digitsVal ds : Int)
    if v < lo ∨ hi < v then none else some v

/-- `ParseInt64` of history.cpp (`std::stoll`, 64-bit range). -/
def ParseInt64 (s : List Nat) : Option Int := parseCppInt s (-(2 ^ 63)) (2 ^ 63 - 1)

/-- `ParseInt` of history.cpp (`std::stoi`, 32-bit range). -/
def ParseInt (s : List Nat) : Option Int := parseCppInt s (-(2 ^ 31)) (2 ^ 31 - 1)

example : ParseInt64 (strBytes "102") = some 102 := by decide
example : ParseInt (strBytes "0") = some 0 := by decide
example : ParseInt (strBytes "1x") = none := by decide
example : ParseInt64 (strBytes "") = none := by decide

/-- Split a line at its first tab: `line.find('\t')` plus `substr`. -/
def splitFirstTab : List Nat → Option (List Nat × List Nat)
  | [] => none
  | c :: rest =>
    if c = 9 then some ([], rest)
    else
      match splitFirstTab rest with
      | none => none
      | some (pre, post) => some (c :: pre, post)

/-- The per-line logic of the load loop: `some (ts, cmd)` exactly when the
line contributes to the ranked view (three tab-separated fields, numeric
epoch and exit code, exit code 0, decodable base64 command). -/
def histContribution (line : List Nat) : Option (Int × List Nat) :=
  if line = [] then none
  else
    match splitFirstTab line with
    | none => none
    | some (tsStr, rest1) =>
      match splitFirstTab rest1 with
      | none => none
      | some (codeStr, b64) =>
        match ParseInt64 tsStr with
        | none => none
        | some ts =>
          match ParseInt codeStr with
          | none => none
          | some code =>
            if code ≠ 0 then none
            else
              match Base64Decode b64 with
              | none => none
              | some cmd => some (ts, cmd)

/-- Fold one contributing line into the accumulated per-command view:
increment the count and keep the most recent timestamp, or append a fresh
entry (`seen.emplace`). -/
def updateHist (acc : List HistoryEntry) (ts : Int) (cmd : List Nat) : List HistoryEntry :=
  if acc.any (fun e => e.command = cmd) then
    acc.map (fun e =>
      if e.command = cmd then
        { e with count := e.count + 1,
                 last_used := if e.last_used < ts then ts else e.last_used }
      else e)
  else acc ++ [⟨cmd, ts, 1⟩]

/-- One iteration of the load loop on one line. -/
def histStep (acc : List HistoryEntry) (line : List Nat) : List HistoryEntry :=
  match histContribution line with
  | none => acc
  | some (ts, cmd) => updateHist acc ts cmd

/-- The line-folding phase of `LoadRecentUniqueFromPath`. -/
def foldHist (lines : List (List Nat)) : List HistoryEntry :=
  lines.foldl histStep []

/-- `LoadRecentUniqueFromPath` on given file content: parse and fold every
line, sort by the comparator, truncate to `limit` when `0 < limit`. -/
def LoadRecentUniqueFromContent (content : List Nat) (limit : Nat) : List HistoryEntry :=
  if 0 < limit ∧
      limit < (List.insertionSort entryLE (foldHist (splitLines content))).length then
    (List.insertionSort entryLE (foldHist (splitLines content))).take limit
  else
    List.insertionSort entryLE (foldHist (splitLines content))

/-- `LoadRecentUniqueFromPath` including the missing-file case (`ENOENT`
yields an empty result, not a failure). -/
def LoadRecentUnique (file : Option (List Nat)) (limit : Nat) : List HistoryEntry :=
  match file with
  | none => []
  | some content => LoadRecentUniqueFromContent content limit

/-- The line written by `AppendHistoryToPath` for a given current epoch:
`epoch TAB exitCode TAB base64(command) NEWLINE`. -/
def intToDecimal (v : Int) : List Nat :=
  match v with
  | Int.ofNat n => (Nat.toDigits 10 n).map Char.toNat
  | Int.negSucc m => 45 :: (Nat.toDigits 10 (m + 1)).map Char.toNat

/-- One appended history log line. -/
def AppendHistoryLine (epoch : Int) (command : List Nat) (exitCode : Int) : List Nat :=
  intToDecimal epoch ++ [9] ++ intToDecimal exitCode ++ [9] ++ Base64Encode command ++ [10]

example : AppendHistoryLine 100 (strBytes "ssh host1") 0 =
    strBytes "100\t0\tc3NoIGhvc3Qx\n" := by decide

/-- Entries produced by the map branch of `updateHist` keep their command. -/
theorem updateHist_map_command (ts : Int) (cmd : List Nat) (e : HistoryEntry) :
    (if e.command = cmd then
      { e with count := e.count + 1,
               last_used := if e.last_used < ts then ts else e.last_used }
    else e).command = e.command := by
  by_cases h : e.command = cmd <;> simp [h]

/-- `updateHist` preserves pairwise-distinct commands. -/
theorem updateHist_pairwise (acc : List HistoryEntry) (ts : Int) (cmd : List Nat)
    (h : acc.Pairwise (fun a b => a.command ≠ b.command)) :
    (updateHist acc ts cmd).Pairwise (fun a b => a.command ≠ b.command) := by
  unfold updateHist
  by_cases hany : acc.any (fun e => e.command = cmd) = true
  · rw [if_pos hany]
    refine List.Pairwise.map _ ?_ h
    intro a b hne
    rw [updateHist_map_command, updateHist_map_command]
    exact hne
  · rw [if_neg hany]
    rw [List.pairwise_append]
    refine ⟨h, List.pairwise_singleton _ _, ?_⟩
    intro a ha b hb
    simp only [List.mem_singleton] at hb
    subst hb
    have hnone : ∀ x ∈ acc, x.command ≠ cmd := by
      intro x hx hxc
      exact hany (List.any_eq_true.mpr ⟨x, hx, by simp [hxc]⟩)
    simpa using hnone a ha

/-- A member of `updateHist acc ts cmd` either shares a command with a
member of `acc` or has command `cmd`. -/
theorem updateHist_mem_command (acc : List HistoryEntry) (ts : Int) (cmd : List Nat)
    (e : HistoryEntry) (he : e ∈ updateHist acc ts cmd) :
    (∃ e1 ∈ acc, e1.command = e.command) ∨ e.command = cmd := by
  unfold updateHist at he
  by_cases hany : acc.any (fun x => x.command = cmd) = true
  · rw [if_pos hany] at he
    rcases List.mem_map.mp he with ⟨e1, he1, rfl⟩
    exact Or.inl ⟨e1, he1, (updateHist_map_command ts cmd e1).symm⟩
  · rw [if_neg hany] at he
    rcases List.mem_append.mp he with he2 | he2
    · exact Or.inl ⟨e, he2, rfl⟩
    · simp only [List.mem_singleton] at he2
      subst he2
      exact Or.inr rfl

/-- The fold keeps commands pairwise distinct. -/
theorem foldl_histStep_pairwise (lines : List (List Nat)) :
    ∀ acc, acc.Pairwise (fun a b => a.command ≠ b.command) →
      (lines.foldl histStep acc).Pairwise (fun a b => a.command ≠ b.command) := by
  induction lines with
  | nil => intro acc h; exact h
  | cons l ls ih =>
    intro acc h
    rw [List.foldl_cons]
    refine ih _ ?_
    unfold histStep
    cases histContribution l with
    | none => exact h
    | some p => exact updateHist_pairwise acc p.1 p.2 h

/-- Every command in the fold result comes from the accumulator or from a
contributing line. -/
theorem foldl_histStep_mem (lines : List (List Nat)) :
    ∀ acc e, e ∈ lines.foldl histStep acc →
      (∃ e0 ∈ acc, e0.command = e.command) ∨
      ∃ line ∈ lines, ∃ ts, histContribution line = some (ts, e.command) := by
  induction lines with
  | nil =>
    intro acc e he
    exact Or.inl ⟨e, he, rfl⟩
  | cons l ls ih =>
    intro acc e he
    rw [List.foldl_cons] at he
    rcases ih _ e he with ⟨e0, he0, hcmd⟩ | ⟨line, hline, ts, hts⟩
    · unfold histStep at he0
      cases hc : histContribution l with
      | none =>
        rw [hc] at he0
        exact Or.inl ⟨e0, he0, hcmd⟩
      | some p =>
        rw [hc] at he0
        rcases updateHist_mem_command acc p.1 p.2 e0 he0 with ⟨e1, he1, h1⟩ | h1
        · exact Or.inl ⟨e1, he1, h1.trans hcmd⟩
        · refine Or.inr ⟨l, List.mem_cons_self l ls, p.1, ?_⟩
          rw [hc]
          have h2 : p.2 = e.command := h1.symm.trans hcmd
          rw [← h2]
    · exact Or.inr ⟨line, List.mem_cons_of_mem l hline, ts, hts⟩

/-! ## General fold characterization for the history load -/

/-- Epochs of the contributing lines whose decoded command is `cmd`. -/
def tsMatching (cs : List (Int × List Nat)) (cmd : List Nat) : List Int :=
  (cs.filter (fun p => p.2 = cmd)).map Prod.fst

/-- `histStep` restricted to contributing lines. -/
def histUpdateStep (acc : List HistoryEntry) (p : Int × List Nat) : List HistoryEntry :=
  updateHist acc p.1 p.2

/-- Folding the load loop over lines is folding the update over the
contributing lines only. -/
theorem foldl_histStep_filterMap (lines : List (List Nat)) :
    ∀ acc, lines.foldl histStep acc =
      (lines.filterMap histContribution).foldl histUpdateStep acc := by
  induction lines with
  | nil => intro acc; rfl
  | cons l ls ih =>
    intro acc
    rw [List.foldl_cons]
    cases hc : histContribution l with
    | none =>
      rw [List.filterMap_cons_none hc, show histStep acc l = acc from by
        unfold histStep
        rw [hc]]
      exact ih acc
    | some p =>
      rw [List.filterMap_cons_some hc, List.foldl_cons,
        show histStep acc l = histUpdateStep acc p from by
          unfold histStep histUpdateStep
          rw [hc]]
      exact ih _

/-- Characterize membership in `updateHist`: an untouched entry of another
command, the bumped entry of the same command, or the freshly appended
entry when the command was absent. -/
theorem updateHist_mem_char (acc : List HistoryEntry) (ts : Int) (cmd : List Nat)
    (e : HistoryEntry) (h : e ∈ updateHist acc ts cmd) :
    (∃ e1 ∈ acc, e1.command ≠ cmd ∧ e = e1) ∨
    (∃ e1 ∈ acc, e1.command = cmd ∧
      e = { e1 with count := e1.count + 1,
                    last_used := if e1.last_used < ts then ts else e1.last_used }) ∨
    ((∀ e1 ∈ acc, e1.command ≠ cmd) ∧ e = ⟨cmd, ts, 1⟩) := by
  unfold updateHist at h
  split at h
  · rcases List.mem_map.mp h with ⟨e1, he1, heq⟩
    by_cases hc : e1.command = cmd
    · rw [if_pos hc] at heq
      exact Or.inr (Or.inl ⟨e1, he1, hc, heq.symm⟩)
    · rw [if_neg hc] at heq
      exact Or.inl ⟨e1, he1, hc, heq.symm⟩
  · rename_i hany
    rcases List.mem_append.mp h with h2 | h2
    · have hnone : ∀ e1 ∈ acc, e1.command ≠ cmd := by
        intro e1 he1 hc
        exact hany (List.any_eq_true.mpr ⟨e1, he1, by simp [hc]⟩)
      exact Or.inl ⟨e, h2, hnone e h2, rfl⟩
    · simp only [List.mem_singleton] at h2
      refine Or.inr (Or.inr ⟨?_, h2⟩)
      intro e1 he1 hc
      exact hany (List.any_eq_true.mpr ⟨e1, he1, by simp [hc]⟩)

/-- Every command present in the accumulator stays present after an
update. -/
theorem updateHist_mem_image (acc : List HistoryEntry) (ts : Int) (cmd : List Nat)
    (e1 : HistoryEntry) (h : e1 ∈ acc) :
    ∃ e2 ∈ updateHist acc ts cmd, e2.command = e1.command := by
  unfold updateHist
  split
  · refine ⟨_, List.mem_map.mpr ⟨e1, h, rfl⟩, ?_⟩
    exact updateHist_map_command ts cmd e1
  · exact ⟨e1, List.mem_append.mpr (Or.inl h), rfl⟩

/-- The updated command is present after an update. -/
theorem updateHist_mem_cmd (acc : List HistoryEntry) (ts : Int) (cmd : List Nat) :
    ∃ e2 ∈ updateHist acc ts cmd, e2.command = cmd := by
  unfold updateHist
  split
  · rename_i hany
    rcases List.any_eq_true.mp hany with ⟨e1, he1, hc⟩
    simp only [decide_eq_true_eq] at hc
    refine ⟨_, List.mem_map.mpr ⟨e1, he1, rfl⟩, ?_⟩
    rw [updateHist_map_command ts cmd e1]
    exact hc
  · exact ⟨⟨cmd, ts, 1⟩, List.mem_append.mpr (Or.inr (List.mem_singleton.mpr rfl)), rfl⟩

/-- Count / most-recent-timestamp characterization of the fold: relative
to the starting accumulator, every resulting entry either extends an
accumulator entry of the same command by the matching contributions, or is
built from the matching contributions alone. -/
theorem foldl_histUpdate_char (cs : List (Int × List Nat)) :
    ∀ acc e, e ∈ cs.foldl histUpdateStep acc →
      (∃ e0 ∈ acc, e0.command = e.command ∧
        e.count = e0.count + (tsMatching cs e.command).length ∧
        (e.last_used = e0.last_used ∨ e.last_used ∈ tsMatching cs e.command) ∧
        e0.last_used ≤ e.last_used ∧
        ∀ t ∈ tsMatching cs e.command, t ≤ e.last_used) ∨
      ((∀ e0 ∈ acc, e0.command ≠ e.command) ∧
        e.count = (tsMatching cs e.command).length ∧
        e.last_used ∈ tsMatching cs e.command ∧
        ∀ t ∈ tsMatching cs e.command, t ≤ e.last_used) := by
  induction cs with
  | nil =>
    intro acc e he
    refine Or.inl ⟨e, he, rfl, by simp [tsMatching], Or.inl rfl, le_refl _, ?_⟩
    simp [tsMatching]
  | cons p cs ih =>
    intro acc e he
    rw [List.foldl_cons] at he
    have hmatch_eq : p.2 ≠ e.command →
        tsMatching (p :: cs) e.command = tsMatching cs e.command := by
      intro hne
      unfold tsMatching
      rw [List.filter_cons_of_neg (by simpa using hne)]
    have hmatch_cons : p.2 = e.command →
        tsMatching (p :: cs) e.command = p.1 :: tsMatching cs e.command := by
      intro hp
      unfold tsMatching
      rw [List.filter_cons_of_pos (by simpa using hp), List.map_cons]
    rcases ih (histUpdateStep acc p) e he with
      ⟨e0, he0, hcmd, hcount, hlast, hle, hmax⟩ | ⟨hnone, hcount, hlast, hmax⟩
    · unfold histUpdateStep at he0
      rcases updateHist_mem_char acc p.1 p.2 e0 he0 with
        ⟨e1, he1, hne, heq⟩ | ⟨e1, he1, hc, heq⟩ | ⟨hfresh, heq⟩
      · subst heq
        have hp2 : p.2 ≠ e.command := fun hp => hne (hcmd.trans hp.symm)
        rw [hmatch_eq hp2] at *
        exact Or.inl ⟨e0, he1, hcmd, hcount, hlast, hle, hmax⟩
      · subst heq
        simp only at hcmd hcount hlast hle
        have hp2 : p.2 = e.command := hc ▸ hcmd
        rw [hmatch_cons hp2] at *
        refine Or.inl ⟨e1, he1, hcmd, ?_, ?_, ?_, ?_⟩
        · rw [List.length_cons]
          omega
        · rcases hlast with hlast | hlast
          · by_cases hlt : e1.last_used < p.1
            · rw [if_pos hlt] at hlast
              exact Or.inr (hlast ▸ List.mem_cons_self _ _)
            · rw [if_neg hlt] at hlast
              exact Or.inl hlast
          · exact Or.inr (List.mem_cons_of_mem _ hlast)
        · refine le_trans ?_ hle
          by_cases hlt : e1.last_used < p.1
          · rw [if_pos hlt]
            exact le_of_lt hlt
          · rw [if_neg hlt]
        · intro t ht
          rcases List.mem_cons.mp ht with rfl | ht2
          · refine le_trans ?_ hle
            by_cases hlt : e1.last_used < p.1
            · rw [if_pos hlt]
            · rw [if_neg hlt]
              omega
          · exact hmax t ht2
      · subst heq
        simp only at hcmd hcount hlast hle
        have hp2 : p.2 = e.command := hcmd
        rw [hmatch_cons hp2] at *
        refine Or.inr ⟨?_, ?_, ?_, ?_⟩
        · intro e2 he2 hc2
          exact hfresh e2 he2 (hc2.trans hp2.symm)
        · rw [List.length_cons]
          omega
        · rcases hlast with hlast | hlast
          · rw [hlast]
            exact List.mem_cons_self _ _
          · exact List.mem_cons_of_mem _ hlast
        · intro t ht
          rcases List.mem_cons.mp ht with rfl | ht2
          · exact hle
          · exact hmax t ht2
    · have hp2 : p.2 ≠ e.command := by
        intro hp
        rcases updateHist_mem_cmd acc p.1 p.2 with ⟨e2, he2, hc2⟩
        exact hnone e2 he2 (hc2.trans hp)
      rw [hmatch_eq hp2] at *
      refine Or.inr ⟨?_, hcount, hlast, hmax⟩
      intro e2 he2 hc2
      rcases updateHist_mem_image acc p.1 p.2 e2 he2 with ⟨e3, he3, hc3⟩
      exact hnone e3 he3 (hc3.trans hc2)

/-- The claim C3 example content: four appended records for
`("ssh host1",0)`, `("ssh host2",0)`, `("ssh host1",0)`, `("ssh host1",1)`
at increasing epochs. -/
def exampleHistContent : List Nat :=
  AppendHistoryLine 100 (strBytes "ssh host1") 0 ++
  AppendHistoryLine 101 (strBytes "ssh host2") 0 ++
  AppendHistoryLine 102 (strBytes "ssh host1") 0 ++
  AppendHistoryLine 103 (strBytes "ssh host1") 1

/-- The example content with malformed lines interspersed: wrong field
count, non-numeric epoch, non-numeric exit code, undecodable base64. -/
def exampleHistContentMalformed : List Nat :=
  AppendHistoryLine 100 (strBytes "ssh host1") 0 ++
  strBytes "garbage line with no tabs\n" ++
  AppendHistoryLine 101 (strBytes "ssh host2") 0 ++
  strBytes "notanumber\t0\tc3NoIGhvc3Qx\n" ++
  strBytes "100\tx\tc3NoIGhvc3Qx\n" ++
  AppendHistoryLine 102 (strBytes "ssh host1") 0 ++
  strBytes "100\t0\t!!!bad!!!\n" ++
  AppendHistoryLine 103 (strBytes "ssh host1") 1

/-- C3: loading a missing file yields an empty sequence; the loaded view
is sorted by last-used descending, then count descending, then command
ascending; commands are folded by exact equality (pairwise distinct);
truncation respects a positive limit; and the spec example (including a
variant with malformed lines interspersed, which are silently skipped)
yields exactly two entries with "ssh host1" counted twice from its two
exit-0 lines and "ssh host2" counted once; in general every loaded
entry's count equals the number of contributing lines bearing its command
and its last-used value is the maximum epoch among them. -/
theorem C3_load_recent_unique (content : List Nat) (limit : Nat) :
    LoadRecentUnique none limit = [] ∧
    List.Sorted entryLE (LoadRecentUniqueFromContent content limit) ∧
    List.Pairwise (fun a b => a.command ≠ b.command)
      (LoadRecentUniqueFromContent content limit) ∧
    (0 < limit → (LoadRecentUniqueFromContent content limit).length ≤ limit) ∧
    LoadRecentUniqueFromContent exampleHistContent 10 =
      [⟨strBytes "ssh host1", 102, 2⟩, ⟨strBytes "ssh host2", 101, 1⟩] ∧
    LoadRecentUniqueFromContent exampleHistContentMalformed 10 =
      [⟨strBytes "ssh host1", 102, 2⟩, ⟨strBytes "ssh host2", 101, 1⟩] ∧
    (∀ e ∈ LoadRecentUniqueFromContent content limit,
      e.count = (tsMatching ((splitLines content).filterMap histContribution)
        e.command).length ∧
      e.last_used ∈ tsMatching ((splitLines content).filterMap histContribution)
        e.command ∧
      ∀ t ∈ tsMatching ((splitLines content).filterMap histContribution) e.command,
        t ≤ e.last_used) := by
  refine ⟨rfl, ?_, ?_, ?_, by decide, by decide, ?_⟩
  · unfold LoadRecentUniqueFromContent
    have hs : List.Sorted entryLE
        (List.insertionSort entryLE (foldHist (splitLines content))) :=
      List.sorted_insertionSort entryLE _
    split
    · exact hs.sublist (List.take_sublist _ _)
    · exact hs
  · unfold LoadRecentUniqueFromContent
    have hp : (List.insertionSort entryLE (foldHist (splitLines content))).Pairwise
        (fun a b => a.command ≠ b.command) := by
      have hperm := List.perm_insertionSort entryLE (foldHist (splitLines content))
      have hbase := foldl_histStep_pairwise (splitLines content) [] (List.Pairwise.nil)
      exact (hperm.pairwise_iff (fun h => Ne.symm h)).mpr hbase
    split
    · exact hp.sublist (List.take_sublist _ _)
    · exact hp
  · intro hpos
    unfold LoadRecentUniqueFromContent
    split
    · simp [List.length_take]
    · rename_i hcond
      push_neg at hcond
      exact hcond hpos
  · intro e he
    have hsortmem : e ∈ List.insertionSort entryLE (foldHist (splitLines content)) := by
      unfold LoadRecentUniqueFromContent at he
      split at he
      · exact (List.take_sublist _ _).subset he
      · exact he
    have hfold : e ∈ foldHist (splitLines content) :=
      (List.perm_insertionSort entryLE _).mem_iff.mp hsortmem
    unfold foldHist at hfold
    rw [foldl_histStep_filterMap] at hfold
    rcases foldl_histUpdate_char _ [] e hfold with ⟨e0, he0, _⟩ | ⟨_, h1, h2, h3⟩
    · exact absurd he0 (List.not_mem_nil e0)
    · exact ⟨h1, h2, h3⟩

/-- Witness for C3's positive-limit truncation at limit 1 on the example
content. -/
theorem C3_load_recent_unique_witness :
    (0 < 1 ∧ (LoadRecentUniqueFromContent exampleHistContent 1).length ≤ 1) ∧
    LoadRecentUniqueFromContent exampleHistContent 10 =
      [⟨strBytes "ssh host1", 102, 2⟩, ⟨strBytes "ssh host2", 101, 1⟩] :=
  ⟨⟨by decide, (C3_load_recent_unique exampleHistContent 1).2.2.2.1 (by decide)⟩,
   (C3_load_recent_unique exampleHistContent 10).2.2.2.2.1⟩

/-- The per-line predicate of `DeleteHistoryCommand`: the line has at
least two tabs and its third field decodes to the target command. -/
def deleteLineMatches (line : List Nat) (target : List Nat) : Bool :=
  match splitFirstTab line with
  | none => false
  | some (_, rest1) =>
    match splitFirstTab rest1 with
    | none => false
    | some (_, b64) =>
      match Base64Decode b64 with
      | none => false
      | some decoded => decoded = target

/-- `DeleteHistoryCommand` on given file content: stream every line,
drop the matching ones (counting drops) and keep the rest followed by a
newline.  `none` models the `NotFound` failure (the temp file is removed
and the rename never happens, so the original content is untouched);
`some (newContent, removed)` models the atomic rename of the temp file
over the original. -/
def DeleteHistoryCommand (content : List Nat) (command : List Nat) :
    Option (List Nat × Nat) :=
  if (splitLines content).countP (fun line => deleteLineMatches line command) = 0 then
    none
  else
    some
      ((((splitLines content).filter
            (fun line => ! deleteLineMatches line command)).map
          (fun l => l ++ [10])).flatten,
        (splitLines content).countP (fun line => deleteLineMatches line command))

/-- One step of the getline split on a non-empty input. -/
theorem splitLinesAux_cons (c : Nat) (rest cur : List Nat) :
    splitLinesAux (c :: rest) cur =
      if c = 10 then cur :: splitLinesAux rest []
      else splitLinesAux rest (cur ++ [c]) := rfl

/-- Lines produced by the getline split never contain a newline byte. -/
theorem splitLinesAux_no_newline (content : List Nat) :
    ∀ cur, (10 : Nat) ∉ cur → ∀ l ∈ splitLinesAux content cur, (10 : Nat) ∉ l := by
  induction content with
  | nil =>
    intro cur hcur l hl
    unfold splitLinesAux at hl
    split at hl
    · simp at hl
    · simp only [List.mem_singleton] at hl
      subst hl
      exact hcur
  | cons c rest ih =>
    intro cur hcur l hl
    unfold splitLinesAux at hl
    by_cases hc : c = 10
    · rw [if_pos hc] at hl
      rcases List.mem_cons.mp hl with rfl | hl2
      · exact hcur
      · exact ih [] (by simp) l hl2
    · rw [if_neg hc] at hl
      refine ih (cur ++ [c]) ?_ l hl
      simp only [List.mem_append, List.mem_singleton]
      rintro (h | h)
      · exact hcur h
      · exact hc h.symm

/-- Lines of `splitLines` never contain a newline byte. -/
theorem splitLines_no_newline (content : List Nat) :
    ∀ l ∈ splitLines content, (10 : Nat) ∉ l :=
  splitLinesAux_no_newline content [] (by simp)

/-- Splitting after a full newline-terminated line produces that line. -/
theorem splitLinesAux_append_line (l : List Nat) (hl : (10 : Nat) ∉ l) (rest : List Nat) :
    ∀ cur, splitLinesAux (l ++ 10 :: rest) cur = (cur ++ l) :: splitLinesAux rest [] := by
  induction l with
  | nil =>
    intro cur
    simp [splitLinesAux]
  | cons c cs ih =>
    intro cur
    have hc : c ≠ 10 := fun h => hl (h ▸ List.mem_cons_self c cs)
    rw [List.cons_append, splitLinesAux_cons, if_neg hc,
      ih (fun h => hl (List.mem_cons_of_mem c h)) (cur ++ [c])]
    simp

/-- Joining newline-free lines with trailing newlines and re-splitting
recovers the original lines. -/
theorem splitLines_flatten (ls : List (List Nat)) (h : ∀ l ∈ ls, (10 : Nat) ∉ l) :
    splitLines ((ls.map (fun l => l ++ [10])).flatten) = ls := by
  induction ls with
  | nil => rfl
  | cons l rest ih =>
    have hl : (10 : Nat) ∉ l := h l (List.mem_cons_self l rest)
    have hrest : ∀ x ∈ rest, (10 : Nat) ∉ x := fun x hx => h x (List.mem_cons_of_mem l hx)
    unfold splitLines
    rw [List.map_cons, List.flatten_cons, List.append_assoc, List.singleton_append,
      splitLinesAux_append_line l hl _ []]
    rw [List.nil_append]
    exact congrArg (l :: ·) (ih hrest)

/-- A line that contributes `(ts, cmd)` to the load also matches a delete
of `cmd`. -/
theorem histContribution_matches (line : List Nat) (ts : Int) (cmd : List Nat)
    (h : histContribution line = some (ts, cmd)) :
    deleteLineMatches line cmd = true := by
  unfold histContribution at h
  unfold deleteLineMatches
  iterate 8 (all_goals try split at h)
  all_goals simp_all

/-- Result of deleting "ssh host2" from the example content: the three
surviving raw lines. -/
def exampleHistDeleted : List Nat :=
  AppendHistoryLine 100 (strBytes "ssh host1") 0 ++
  AppendHistoryLine 102 (strBytes "ssh host1") 0 ++
  AppendHistoryLine 103 (strBytes "ssh host1") 1

/-- C4: deletion fails with not-found exactly when no raw line's decoded
command equals the target (and then no rename happens, leaving the
content untouched); on success the removed count is the number of all
matching lines, the surviving lines are exactly the non-matching ones,
and the loaded view of the new content no longer contains the target; on
the spec example, deleting "ssh host2" removes one line and reduces the
loaded set to exactly the "ssh host1" entry. -/
theorem C4_delete_history (content target : List Nat) :
    (DeleteHistoryCommand content target = none ↔
      (splitLines content).countP (fun l => deleteLineMatches l target) = 0) ∧
    (∀ nc k, DeleteHistoryCommand content target = some (nc, k) →
      k = (splitLines content).countP (fun l => deleteLineMatches l target) ∧
      splitLines nc =
        (splitLines content).filter (fun l => ! deleteLineMatches l target) ∧
      ∀ limit e, e ∈ LoadRecentUniqueFromContent nc limit → e.command ≠ target) ∧
    DeleteHistoryCommand exampleHistContent (strBytes "ssh host2") =
      some (exampleHistDeleted, 1) ∧
    LoadRecentUniqueFromContent exampleHistDeleted 10 =
      [⟨strBytes "ssh host1", 102, 2⟩] := by
  refine ⟨?_, ?_, by decide, by decide⟩
  · unfold DeleteHistoryCommand
    split
    · rename_i h0
      simp [h0]
    · rename_i h0
      simp [h0]
  · intro nc k hsome
    unfold DeleteHistoryCommand at hsome
    split at hsome
    · exact absurd hsome (by simp)
    · rename_i h0
      simp only [Option.some.injEq, Prod.mk.injEq] at hsome
      obtain ⟨hnc, hk⟩ := hsome
      have hlines : splitLines nc =
          (splitLines content).filter (fun l => ! deleteLineMatches l target) := by
        rw [← hnc]
        apply splitLines_flatten
        intro l hl
        exact splitLines_no_newline content l (List.mem_of_mem_filter hl)
      refine ⟨hk.symm, hlines, ?_⟩
      intro limit e he heq
      have hsortmem : e ∈ List.insertionSort entryLE (foldHist (splitLines nc)) := by
        unfold LoadRecentUniqueFromContent at he
        split at he
        · exact (List.take_sublist _ _).subset he
        · exact he
      have hfold : e ∈ foldHist (splitLines nc) :=
        (List.perm_insertionSort entryLE _).mem_iff.mp hsortmem
      unfold foldHist at hfold
      rcases foldl_histStep_mem (splitLines nc) [] e hfold with ⟨e0, he0, _⟩ | ⟨line, hline, ts, hts⟩
      · exact absurd he0 (List.not_mem_nil e0)
      · rw [hlines] at hline
        have hnomatch : (! deleteLineMatches line target) = true :=
          (List.mem_filter.mp hline).2
        have hmatch : deleteLineMatches line target = true := by
          rw [← heq]
          exact histContribution_matches line ts e.command hts
        rw [hmatch] at hnomatch
        exact absurd hnomatch (by simp)

/-- Witness for C4 at the spec example. -/
theorem C4_delete_history_witness :
    DeleteHistoryCommand exampleHistContent (strBytes "ssh host2") =
      some (exampleHistDeleted, 1) ∧
    DeleteHistoryCommand exampleHistDeleted (strBytes "ssh host2") = none ∧
    1 = (splitLines exampleHistContent).countP
      (fun l => deleteLineMatches l (strBytes "ssh host2")) ∧
    (⟨strBytes "ssh host1", 102, 2⟩ : HistoryEntry).command ≠ strBytes "ssh host2" :=
  ⟨by decide,
   (C4_delete_history exampleHistDeleted (strBytes "ssh host2")).1.mpr (by decide),
   ((C4_delete_history exampleHistContent (strBytes "ssh host2")).2.1
      exampleHistDeleted 1 (by decide)).1,
   ((C4_delete_history exampleHistContent (strBytes "ssh host2")).2.1
      exampleHistDeleted 1 (by decide)).2.2 10 ⟨strBytes "ssh host1", 102, 2⟩ (by decide)⟩

/-! ## Alias store (alias.cpp) -/

/-- Bytes produced by the decode loop are always below 256. -/
theorem b64DecodeLoop_bytes_lt (l : List Nat) :
    ∀ val valb pad padding out,
      b64DecodeLoop l val valb pad padding = some out → ∀ b ∈ out, b < 256 := by
  induction l with
  | nil =>
    intro val valb pad padding out h b hb
    unfold b64DecodeLoop at h
    split at h
    · exact absurd h (by simp)
    · simp only [Option.some.injEq] at h
      subst h
      simp at hb
  | cons c rest ih =>
    intro val valb pad padding out h b hb
    unfold b64DecodeLoop at h
    split at h
    · exact ih _ _ _ _ _ h b hb
    · split at h
      · exact absurd h (by simp)
      · split at h
        · exact absurd h (by simp)
        · rename_i d hd
          split at h
          · split at h
            · exact absurd h (by simp)
            · rename_i out2 hout2
              simp only [Option.some.injEq] at h
              subst h
              rcases List.mem_cons.mp hb with rfl | hb2
              · exact Nat.mod_lt _ (by norm_num)
              · exact ih _ _ _ _ _ hout2 b hb2
          · exact ih _ _ _ _ _ h b hb

/-- Bytes produced by `Base64Decode` are always below 256. -/
theorem base64Decode_bytes_lt (s out : List Nat) (h : Base64Decode s = some out) :
    ∀ b ∈ out, b < 256 := by
  unfold Base64Decode at h
  split at h
  · exact absurd h (by simp)
  · exact b64DecodeLoop_bytes_lt s 0 (-8) 0 false out h

theorem b64Char_ge_43 : ∀ m, m < 64 → 43 ≤ b64Char m := by decide

/-- Every byte of an encoded string is at least 43 (so never a tab or a
newline). -/
theorem base64Encode_bytes_ge_43 (bs : List Nat) : ∀ c ∈ Base64Encode bs, 43 ≤ c := by
  induction bs using Base64Encode.induct with
  | case4 => simp [Base64Encode]
  | case3 b0 =>
    intro c hc
    simp only [Base64Encode] at hc
    simp only [List.mem_cons, List.not_mem_nil, or_false] at hc
    rcases hc with rfl | rfl | rfl | rfl
    · exact b64Char_ge_43 _ (Nat.mod_lt _ (by norm_num))
    · exact b64Char_ge_43 _ (Nat.mod_lt _ (by norm_num))
    · norm_num
    · norm_num
  | case2 b0 b1 =>
    intro c hc
    simp only [Base64Encode] at hc
    simp only [List.mem_cons, List.not_mem_nil, or_false] at hc
    rcases hc with rfl | rfl | rfl | rfl
    · exact b64Char_ge_43 _ (Nat.mod_lt _ (by norm_num))
    · exact b64Char_ge_43 _ (Nat.mod_lt _ (by norm_num))
    · exact b64Char_ge_43 _ (Nat.mod_lt _ (by norm_num))
    · norm_num
  | case1 b0 b1 b2 rest ih =>
    intro c hc
    simp only [Base64Encode] at hc
    simp only [List.mem_cons] at hc
    rcases hc with rfl | rfl | rfl | rfl | h
    · exact b64Char_ge_43 _ (Nat.mod_lt _ (by norm_num))
    · exact b64Char_ge_43 _ (Nat.mod_lt _ (by norm_num))
    · exact b64Char_ge_43 _ (Nat.mod_lt _ (by norm_num))
    · exact b64Char_ge_43 _ (Nat.mod_lt _ (by norm_num))
    · exact ih c h

/-- One step of `splitFirstTab` on a non-empty list. -/
theorem splitFirstTab_cons (c : Nat) (rest : List Nat) :
    splitFirstTab (c :: rest) =
      if c = 9 then some ([], rest)
      else
        match splitFirstTab rest with
        | none => none
        | some (pre, post) => some (c :: pre, post) := rfl

/-- Splitting at the first tab of `a ++ 9 :: b` when `a` is tab-free. -/
theorem splitFirstTab_append (a : List Nat) (ha : (9 : Nat) ∉ a) (b : List Nat) :
    splitFirstTab (a ++ 9 :: b) = some (a, b) := by
  induction a with
  | nil => rfl
  | cons c cs ih =>
    have hc : c ≠ 9 := fun h => ha (h ▸ List.mem_cons_self c cs)
    rw [List.cons_append, splitFirstTab_cons, if_neg hc,
      ih (fun h => ha (List.mem_cons_of_mem c h))]

/-- Erase a key from the in-memory alias mapping (`aliases.erase(key)`). -/
def aliasErase (m : List (List Nat × List Nat)) (key : List Nat) :
    List (List Nat × List Nat) :=
  m.filter (fun kv => !(kv.1 = key : Bool))

/-- Set a key in the in-memory alias mapping (`aliases[key] = value`). -/
def aliasSet (m : List (List Nat × List Nat)) (key value : List Nat) :
    List (List Nat × List Nat) :=
  if m.any (fun kv => kv.1 = key) then
    m.map (fun kv => if kv.1 = key then (kv.1, value) else kv)
  else m ++ [(key, value)]

/-- `unordered_map::find`-style lookup in the association list. -/
def aliasLookup (m : List (List Nat × List Nat)) (key : List Nat) : Option (List Nat) :=
  match m with
  | [] => none
  | kv :: rest => if kv.1 = key then some kv.2 else aliasLookup rest key

/-- One line of `ParseAliasContent`: split at the first tab, decode both
fields, skip on failure or empty key, erase on empty value (tombstone),
otherwise set. -/
def aliasStep (m : List (List Nat × List Nat)) (line : List Nat) :
    List (List Nat × List Nat) :=
  if line = [] then m
  else
    match splitFirstTab line with
    | none => m
    | some kv =>
      match Base64Decode kv.1 with
      | none => m
      | some key =>
        match Base64Decode kv.2 with
        | none => m
        | some val =>
          if key = [] then m
          else if val = [] then aliasErase m key
          else aliasSet m key val

/-- `ParseAliasContent`: fold all lines in file order into the mapping. -/
def ParseAliasContent (content : List Nat) : List (List Nat × List Nat) :=
  (splitLines content).foldl aliasStep []

/-- One persisted alias record before its newline:
`base64(key) TAB base64(value)`. -/
def aliasLine (kv : List Nat × List Nat) : List Nat :=
  Base64Encode kv.1 ++ 9 :: Base64Encode kv.2

/-- `WriteAliases`: sort the mapping by key, skip entries with empty key
or value, write one record per line. -/
def WriteAliases (m : List (List Nat × List Nat)) : List Nat :=
  ((((List.insertionSort (fun a b => a.1 ≤ b.1) m).filter
        (fun kv => !(kv.1.isEmpty || kv.2.isEmpty))).map aliasLine).map
    (fun l => l ++ [10])).flatten

/-- `SetAliasForKeyAtPath` on given file content (a missing file reads as
empty): reject an empty key, read-modify-write the whole mapping, erase on
an empty alias, and rewrite the entire file. -/
def SetAliasForKeyAtPath (content : List Nat) (key aliasVal : List Nat) :
    Option (List Nat) :=
  if key = [] then none
  else
    some (WriteAliases
      (if aliasVal = [] then aliasErase (ParseAliasContent content) key
       else aliasSet (ParseAliasContent content) key aliasVal))

example : SetAliasForKeyAtPath [] (strBytes "host1") (strBytes "alias1") =
    some (strBytes "aG9zdDE=\tYWxpYXMx\n") := by decide
example :
    aliasLookup (ParseAliasContent (strBytes "aG9zdDE=\tYWxpYXMx\n")) (strBytes "host1") =
      some (strBytes "alias1") := by decide

/-- Lookup after setting an existing key through the map branch. -/
theorem aliasLookup_map_set (m : List (List Nat × List Nat)) (key value : List Nat)
    (hany : m.any (fun kv => kv.1 = key) = true) :
    aliasLookup (m.map (fun kv => if kv.1 = key then (kv.1, value) else kv)) key =
      some value := by
  induction m with
  | nil => simp at hany
  | cons kv rest ih =>
    simp only [List.any_cons, Bool.or_eq_true, decide_eq_true_eq] at hany
    by_cases hk : kv.1 = key
    · simp [aliasLookup, hk]
    · rw [List.map_cons, show (if kv.1 = key then (kv.1, value) else kv) = kv from if_neg hk]
      unfold aliasLookup
      rw [if_neg hk]
      exact ih (hany.resolve_left hk)

/-- Lookup after appending a key that was absent. -/
theorem aliasLookup_append_fresh (m : List (List Nat × List Nat)) (key value : List Nat)
    (hnone : ¬ m.any (fun kv => kv.1 = key) = true) :
    aliasLookup (m ++ [(key, value)]) key = some value := by
  induction m with
  | nil => simp [aliasLookup]
  | cons kv rest ih =>
    simp only [List.any_cons, Bool.or_eq_true, decide_eq_true_eq] at hnone
    push_neg at hnone
    rw [List.cons_append]
    unfold aliasLookup
    rw [if_neg hnone.1]
    exact ih (by simpa using hnone.2)

/-- Lookup finds the value just set. -/
theorem aliasLookup_set (m : List (List Nat × List Nat)) (key value : List Nat) :
    aliasLookup (aliasSet m key value) key = some value := by
  unfold aliasSet
  split
  · rename_i hany
    exact aliasLookup_map_set m key value hany
  · rename_i hany
    exact aliasLookup_append_fresh m key value hany

/-- Lookup after erasing the key fails. -/
theorem aliasLookup_erase (m : List (List Nat × List Nat)) (key : List Nat) :
    aliasLookup (aliasErase m key) key = none := by
  induction m with
  | nil => rfl
  | cons kv rest ih =>
    unfold aliasErase at ih ⊢
    rw [List.filter_cons]
    by_cases hk : kv.1 = key
    · simp only [hk]
      simpa using ih
    · have : (!(kv.1 = key : Bool)) = true := by simp [hk]
      rw [if_pos this]
      unfold aliasLookup
      rw [if_neg hk]
      exact ih

/-- A successful lookup is a membership. -/
theorem aliasLookup_eq_some_mem (m : List (List Nat × List Nat)) (key v : List Nat)
    (h : aliasLookup m key = some v) : (key, v) ∈ m := by
  induction m with
  | nil => exact absurd h (by simp [aliasLookup])
  | cons kv rest ih =>
    unfold aliasLookup at h
    split at h
    · rename_i hk
      simp only [Option.some.injEq] at h
      subst h
      subst hk
      exact List.mem_cons_self _ _
    · exact List.mem_cons_of_mem _ (ih h)

/-- Lookup fails exactly when the key is absent. -/
theorem aliasLookup_eq_none_iff (m : List (List Nat × List Nat)) (key : List Nat) :
    aliasLookup m key = none ↔ key ∉ m.map Prod.fst := by
  induction m with
  | nil => simp [aliasLookup]
  | cons kv rest ih =>
    unfold aliasLookup
    by_cases hk : kv.1 = key
    · simp [hk]
    · rw [if_neg hk, List.map_cons, List.mem_cons, ih]
      constructor
      · rintro h (h2 | h2)
        · exact hk h2.symm
        · exact h h2
      · intro h
        exact fun h2 => h (Or.inr h2)

/-- With distinct keys, a membership determines the lookup. -/
theorem aliasLookup_of_mem (m : List (List Nat × List Nat)) (key v : List Nat)
    (hnd : (m.map Prod.fst).Nodup) (h : (key, v) ∈ m) :
    aliasLookup m key = some v := by
  induction m with
  | nil => exact absurd h (List.not_mem_nil _)
  | cons kv rest ih =>
    rw [List.map_cons, List.nodup_cons] at hnd
    rcases List.mem_cons.mp h with rfl | h2
    · simp [aliasLookup]
    · unfold aliasLookup
      have hk : kv.1 ≠ key := by
        intro hk
        exact hnd.1 (hk ▸ (List.mem_map.mpr ⟨(key, v), h2, rfl⟩))
      rw [if_neg hk]
      exact ih hnd.2 h2

/-- Lookup is invariant under permutation when keys are distinct. -/
theorem aliasLookup_perm (m1 m2 : List (List Nat × List Nat)) (hperm : m1.Perm m2)
    (hnd : (m1.map Prod.fst).Nodup) (key : List Nat) :
    aliasLookup m1 key = aliasLookup m2 key := by
  have hnd2 : (m2.map Prod.fst).Nodup := ((hperm.map Prod.fst).nodup_iff).mp hnd
  cases h : aliasLookup m1 key with
  | some v =>
    exact (aliasLookup_of_mem m2 key v hnd2 (hperm.mem_iff.mp
      (aliasLookup_eq_some_mem m1 key v h))).symm
  | none =>
    rw [aliasLookup_eq_none_iff] at h
    symm
    rw [aliasLookup_eq_none_iff]
    exact fun h2 => h (((hperm.map Prod.fst).mem_iff).mpr h2)

/-- Well-formedness of the in-memory mapping: distinct keys, non-empty
keys and values, all bytes below 256. -/
def AliasInv (m : List (List Nat × List Nat)) : Prop :=
  (m.map Prod.fst).Nodup ∧
    ∀ kv ∈ m, kv.1 ≠ [] ∧ kv.2 ≠ [] ∧ (∀ b ∈ kv.1, b < 256) ∧ ∀ b ∈ kv.2, b < 256

theorem aliasInv_nil : AliasInv [] := ⟨List.nodup_nil, by simp⟩

theorem aliasInv_erase (m : List (List Nat × List Nat)) (key : List Nat)
    (h : AliasInv m) : AliasInv (aliasErase m key) := by
  unfold aliasErase
  refine ⟨?_, ?_⟩
  · exact ((List.filter_sublist m).map Prod.fst).nodup h.1
  · intro kv hkv
    exact h.2 kv (List.mem_of_mem_filter hkv)

theorem aliasInv_set (m : List (List Nat × List Nat)) (key value : List Nat)
    (h : AliasInv m) (hk : key ≠ []) (hkb : ∀ b ∈ key, b < 256)
    (hv : value ≠ []) (hvb : ∀ b ∈ value, b < 256) :
    AliasInv (aliasSet m key value) := by
  unfold aliasSet
  split
  · refine ⟨?_, ?_⟩
    · have : (m.map (fun kv => if kv.1 = key then (kv.1, value) else kv)).map Prod.fst =
          m.map Prod.fst := by
        rw [List.map_map]
        apply List.map_congr_left
        intro kv _
        by_cases hke : kv.1 = key <;> simp [hke]
      rw [this]
      exact h.1
    · intro kv hkv
      rcases List.mem_map.mp hkv with ⟨kv0, hkv0, rfl⟩
      rcases h.2 kv0 hkv0 with ⟨h1, h2, h3, h4⟩
      by_cases hke : kv0.1 = key
      · rw [if_pos hke]
        exact ⟨h1, hv, h3, hvb⟩
      · rw [if_neg hke]
        exact ⟨h1, h2, h3, h4⟩
  · rename_i hany
    refine ⟨?_, ?_⟩
    · rw [List.map_append, List.nodup_append]
      refine ⟨h.1, by simp, ?_⟩
      intro k1 hk1
      simp only [List.map_cons, List.map_nil, List.mem_singleton]
      intro hk2
      subst hk2
      rcases List.mem_map.mp hk1 with ⟨kv0, hkv0, hfst⟩
      apply hany
      rw [List.any_eq_true]
      exact ⟨kv0, hkv0, by simp [hfst]⟩
    · intro kv hkv
      rcases List.mem_append.mp hkv with h2 | h2
      · exact h.2 kv h2
      · simp only [List.mem_singleton] at h2
        subst h2
        exact ⟨hk, hv, hkb, hvb⟩

theorem aliasInv_step (m : List (List Nat × List Nat)) (line : List Nat)
    (h : AliasInv m) : AliasInv (aliasStep m line) := by
  unfold aliasStep
  split
  · exact h
  split
  · exact h
  rename_i kv hkv
  cases hkd : Base64Decode kv.1 with
  | none => exact h
  | some key =>
    cases hvd : Base64Decode kv.2 with
    | none => exact h
    | some val =>
      show AliasInv
        (if key = [] then m
         else if val = [] then aliasErase m key else aliasSet m key val)
      by_cases hke : key = []
      · rw [if_pos hke]
        exact h
      · rw [if_neg hke]
        by_cases hve : val = []
        · rw [if_pos hve]
          exact aliasInv_erase m key h
        · rw [if_neg hve]
          exact aliasInv_set m key val h hke
            (base64Decode_bytes_lt kv.1 key hkd) hve
            (base64Decode_bytes_lt kv.2 val hvd)

theorem aliasInv_foldl (lines : List (List Nat)) :
    ∀ m, AliasInv m → AliasInv (lines.foldl aliasStep m) := by
  induction lines with
  | nil => intro m h; exact h
  | cons l ls ih =>
    intro m h
    rw [List.foldl_cons]
    exact ih _ (aliasInv_step m l h)

theorem aliasInv_parse (content : List Nat) : AliasInv (ParseAliasContent content) :=
  aliasInv_foldl (splitLines content) [] aliasInv_nil

/-- A persisted alias record contains no newline byte. -/
theorem aliasLine_no_newline (kv : List Nat × List Nat) : (10 : Nat) ∉ aliasLine kv := by
  unfold aliasLine
  simp only [List.mem_append, List.mem_cons]
  rintro (h | h | h)
  · have := base64Encode_bytes_ge_43 kv.1 10 h
    omega
  · omega
  · have := base64Encode_bytes_ge_43 kv.2 10 h
    omega

/-- Splitting the rewritten alias file recovers its records. -/
theorem splitLines_writeAliases (m : List (List Nat × List Nat)) :
    splitLines (WriteAliases m) =
      ((List.insertionSort (fun a b => a.1 ≤ b.1) m).filter
        (fun kv => !(kv.1.isEmpty || kv.2.isEmpty))).map aliasLine := by
  unfold WriteAliases
  apply splitLines_flatten
  intro l hl
  rcases List.mem_map.mp hl with ⟨kv, _, rfl⟩
  exact aliasLine_no_newline kv

/-- Parsing a well-formed alias record sets its key. -/
theorem aliasStep_aliasLine (m : List (List Nat × List Nat)) (kv : List Nat × List Nat)
    (hk : kv.1 ≠ []) (hkb : ∀ b ∈ kv.1, b < 256)
    (hv : kv.2 ≠ []) (hvb : ∀ b ∈ kv.2, b < 256) :
    aliasStep m (aliasLine kv) = aliasSet m kv.1 kv.2 := by
  unfold aliasStep aliasLine
  have h9 : (9 : Nat) ∉ Base64Encode kv.1 := fun h => by
    have := base64Encode_bytes_ge_43 kv.1 9 h
    omega
  rw [if_neg (by simp), splitFirstTab_append _ h9]
  show (match Base64Decode (Base64Encode kv.1) with
    | none => m
    | some key =>
      match Base64Decode (Base64Encode kv.2) with
      | none => m
      | some val =>
        if key = [] then m
        else if val = [] then aliasErase m key else aliasSet m key val) =
    aliasSet m kv.1 kv.2
  rw [base64_roundtrip kv.1 hkb, base64_roundtrip kv.2 hvb]
  show (if kv.1 = [] then m
    else if kv.2 = [] then aliasErase m kv.1 else aliasSet m kv.1 kv.2) =
    aliasSet m kv.1 kv.2
  rw [if_neg hk, if_neg hv]

/-- Parsing a tombstone record (empty encoded value) erases its key. -/
theorem aliasStep_tombstone (m : List (List Nat × List Nat)) (key : List Nat)
    (hk : key ≠ []) (hkb : ∀ b ∈ key, b < 256) :
    aliasStep m (Base64Encode key ++ [9]) = aliasErase m key := by
  unfold aliasStep
  have h9 : (9 : Nat) ∉ Base64Encode key := fun h => by
    have := base64Encode_bytes_ge_43 key 9 h
    omega
  have hsplit : splitFirstTab (Base64Encode key ++ [9]) = some (Base64Encode key, []) :=
    splitFirstTab_append _ h9 []
  rw [if_neg (by simp), hsplit]
  show (match Base64Decode (Base64Encode key) with
    | none => m
    | some k =>
      match Base64Decode ([] : List Nat) with
      | none => m
      | some val =>
        if k = [] then m
        else if val = [] then aliasErase m k else aliasSet m k val) =
    aliasErase m key
  rw [base64_roundtrip key hkb]
  show (if key = [] then m
    else if ([] : List Nat) = [] then aliasErase m key else aliasSet m key []) =
    aliasErase m key
  rw [if_neg hk, if_pos rfl]

/-- Folding the parser over well-formed records is folding the set
operation over the mapping entries. -/
theorem foldl_aliasStep_lines (items : List (List Nat × List Nat))
    (hwf : ∀ kv ∈ items,
      kv.1 ≠ [] ∧ kv.2 ≠ [] ∧ (∀ b ∈ kv.1, b < 256) ∧ ∀ b ∈ kv.2, b < 256) :
    ∀ acc, (items.map aliasLine).foldl aliasStep acc =
      items.foldl (fun acc kv => aliasSet acc kv.1 kv.2) acc := by
  induction items with
  | nil => intro acc; rfl
  | cons kv rest ih =>
    intro acc
    rw [List.map_cons, List.foldl_cons, List.foldl_cons]
    rcases hwf kv (List.mem_cons_self _ _) with ⟨h1, h2, h3, h4⟩
    rw [aliasStep_aliasLine acc kv h1 h3 h2 h4]
    exact ih (fun kv2 h => hwf kv2 (List.mem_cons_of_mem _ h)) _

/-- Folding set over records with fresh distinct keys appends them. -/
theorem foldl_aliasSet_fresh (items : List (List Nat × List Nat)) :
    ∀ acc, (items.map Prod.fst).Nodup →
      (∀ kv ∈ items, ∀ kv2 ∈ acc, kv.1 ≠ kv2.1) →
      items.foldl (fun acc kv => aliasSet acc kv.1 kv.2) acc = acc ++ items := by
  induction items with
  | nil => intro acc _ _; simp
  | cons kv rest ih =>
    intro acc hnd hdisj
    rw [List.foldl_cons]
    have hany : ¬ acc.any (fun kv2 => kv2.1 = kv.1) = true := by
      rw [List.any_eq_true]
      rintro ⟨kv2, h2, he⟩
      simp only [decide_eq_true_eq] at he
      exact hdisj kv (List.mem_cons_self _ _) kv2 h2 he.symm
    rw [show aliasSet acc kv.1 kv.2 = acc ++ [(kv.1, kv.2)] from by
      unfold aliasSet
      rw [if_neg hany]]
    rw [List.map_cons, List.nodup_cons] at hnd
    rw [ih (acc ++ [(kv.1, kv.2)]) hnd.2 ?_]
    · simp
    · intro kv3 h3 kv2 h2
      rcases List.mem_append.mp h2 with h2a | h2a
      · exact hdisj kv3 (List.mem_cons_of_mem _ h3) kv2 h2a
      · simp only [List.mem_singleton] at h2a
        subst h2a
        intro he
        exact hnd.1 (he ▸ List.mem_map.mpr ⟨kv3, h3, rfl⟩)

/-- Reading back the rewritten alias file yields the same mapping (as a
lookup function) as the in-memory mapping it was written from. -/
theorem parse_writeAliases (m : List (List Nat × List Nat)) (hinv : AliasInv m)
    (key : List Nat) :
    aliasLookup (ParseAliasContent (WriteAliases m)) key = aliasLookup m key := by
  have hperm : (List.insertionSort (fun a b => a.1 ≤ b.1) m).Perm m :=
    List.perm_insertionSort _ m
  have hwf : ∀ kv ∈ List.insertionSort (fun a b => a.1 ≤ b.1) m,
      kv.1 ≠ [] ∧ kv.2 ≠ [] ∧ (∀ b ∈ kv.1, b < 256) ∧ ∀ b ∈ kv.2, b < 256 :=
    fun kv h => hinv.2 kv (hperm.mem_iff.mp h)
  have hnd : ((List.insertionSort (fun a b => a.1 ≤ b.1) m).map Prod.fst).Nodup :=
    ((hperm.map Prod.fst).nodup_iff).mpr hinv.1
  have hfilter : (List.insertionSort (fun a b => a.1 ≤ b.1) m).filter
      (fun kv => !(kv.1.isEmpty || kv.2.isEmpty)) =
      List.insertionSort (fun a b => a.1 ≤ b.1) m := by
    apply List.filter_eq_self.mpr
    intro kv h
    rcases hwf kv h with ⟨h1, h2, _, _⟩
    simp [h1, h2]
  unfold ParseAliasContent
  rw [splitLines_writeAliases, hfilter,
    foldl_aliasStep_lines _ hwf [],
    foldl_aliasSet_fresh _ [] hnd (by simp),
    List.nil_append]
  exact aliasLookup_perm _ m hperm hnd key

/-- C7: setting a non-empty alias for a non-empty key and loading yields
that value for that key; a subsequent set with an empty alias removes the
key from the loaded mapping; loading folds the persisted lines in file
order and a record with an empty decoded value is a tombstone erasing its
key; lines with an empty decoded key are never matched and an empty key
is never stored (the set operation rejects it). -/
theorem C7_alias_set_load (content key value : List Nat)
    (hk : key ≠ []) (hkb : ∀ b ∈ key, b < 256)
    (hv : value ≠ []) (hvb : ∀ b ∈ value, b < 256) :
    (∀ nc, SetAliasForKeyAtPath content key value = some nc →
      aliasLookup (ParseAliasContent nc) key = some value) ∧
    (∀ nc2, SetAliasForKeyAtPath content key [] = some nc2 →
      aliasLookup (ParseAliasContent nc2) key = none) ∧
    (∀ m, aliasStep m (Base64Encode key ++ [9]) = aliasErase m key) ∧
    ParseAliasContent content = (splitLines content).foldl aliasStep [] ∧
    aliasLookup (ParseAliasContent content) [] = none ∧
    SetAliasForKeyAtPath content [] value = none := by
  refine ⟨?_, ?_, fun m => aliasStep_tombstone m key hk hkb, rfl, ?_, ?_⟩
  · intro nc h
    unfold SetAliasForKeyAtPath at h
    rw [if_neg hk, if_neg hv] at h
    simp only [Option.some.injEq] at h
    subst h
    rw [parse_writeAliases _ (aliasInv_set _ key value (aliasInv_parse content)
      hk hkb hv hvb) key]
    exact aliasLookup_set _ key value
  · intro nc2 h
    unfold SetAliasForKeyAtPath at h
    rw [if_neg hk, if_pos rfl] at h
    simp only [Option.some.injEq] at h
    subst h
    rw [parse_writeAliases _ (aliasInv_erase _ key (aliasInv_parse content)) key]
    exact aliasLookup_erase _ key
  · rw [aliasLookup_eq_none_iff]
    intro hmem
    rcases List.mem_map.mp hmem with ⟨kv, hkv, hfst⟩
    exact ((aliasInv_parse content).2 kv hkv).1 hfst
  · unfold SetAliasForKeyAtPath
    rw [if_pos rfl]

/-- Witness for C7: set "alias1" for "host1" on an empty store, load it
back, then clear it and observe the key gone. -/
theorem C7_alias_set_load_witness :
    SetAliasForKeyAtPath [] (strBytes "host1") (strBytes "alias1") =
      some (strBytes "aG9zdDE=\tYWxpYXMx\n") ∧
    aliasLookup (ParseAliasContent (strBytes "aG9zdDE=\tYWxpYXMx\n"))
      (strBytes "host1") = some (strBytes "alias1") ∧
    SetAliasForKeyAtPath (strBytes "aG9zdDE=\tYWxpYXMx\n") (strBytes "host1") [] =
      some [] ∧
    aliasLookup (ParseAliasContent []) (strBytes "host1") = none :=
  ⟨by decide,
   (C7_alias_set_load [] (strBytes "host1") (strBytes "alias1")
      (by decide) (by decide) (by decide) (by decide)).1 _ (by decide),
   by decide,
   (C7_alias_set_load (strBytes "aG9zdDE=\tYWxpYXMx\n") (strBytes "host1")
      (strBytes "alias1") (by decide) (by decide) (by decide) (by decide)).2.1 [] (by decide)⟩

/-! ## Non-interactive pick (main.cpp `CommandPick`, normalize.cpp) -/

/-- util.h `IsSpace`: space, tab, LF, CR (note: no vertical tab / form
feed, unlike the C locale `isspace`). -/
def isSpaceUtil (c : Nat) : Bool := c = 32 || c = 9 || c = 10 || c = 13

/-- `TrimSpace` of util.cpp. -/
def TrimSpace (s : List Nat) : List Nat :=
  ((s.dropWhile (fun c => isSpaceUtil c)).reverse.dropWhile
    (fun c => isSpaceUtil c)).reverse

/-- `ExtractArgsFromCommand` of normalize.cpp: the argument part of a
normalized "ssh ..." command, or empty when the command is not one. -/
def ExtractArgsFromCommand (command : List Nat) : List Nat :=
  if TrimSpace command = strBytes "ssh" then []
  else if 3 < (TrimSpace command).length ∧
      (TrimSpace command).take 4 = strBytes "ssh " then
    TrimSpace ((TrimSpace command).drop 4)
  else []

example : ExtractArgsFromCommand (strBytes "ssh host1") = strBytes "host1" := by decide
example : ExtractArgsFromCommand (strBytes "scp x y") = [] := by decide
example : ExtractArgsFromCommand (strBytes "ssh") = [] := by decide

/-- The UI-facing projection of a history entry (the derived ssh metadata
fields host/port/jump/identity are render-only and not modelled). The
C++ `alias` field is called `aliasName` because `alias` is reserved in
Lean. -/
structure PickItem where
  display : List Nat
  aliasName : List Nat
  args : List Nat
  last_used : Int
  count : Nat
deriving DecidableEq, Repr

/-- The item-building filter loop of `CommandPick`: skip entries whose
command has control characters, whose extracted argument string is empty
or has control characters; attach the alias only when it is free of
control characters. -/
def CommandPickItems (entries : List HistoryEntry)
    (aliases : List (List Nat × List Nat)) : List PickItem :=
  entries.filterMap (fun entry =>
    if ContainsControlChars entry.command then none
    else if ExtractArgsFromCommand entry.command = [] ∨
        ContainsControlChars (ExtractArgsFromCommand entry.command) then none
    else
      some { display := entry.command,
             aliasName :=
               match aliasLookup aliases (ExtractArgsFromCommand entry.command) with
               | some a => if ContainsControlChars a then [] else a
               | none => [],
             args := ExtractArgsFromCommand entry.command,
             last_used := entry.last_used,
             count := entry.count })

/-- `CommandPick` in `--non-interactive` mode: `some args` models printing
the selected argument string to stdout with exit 0; `none` models a
non-zero exit with no stdout output. -/
def CommandPickNonInteractive (histFile : Option (List Nat)) (aliasContent : List Nat)
    (limit : Nat) (selectIdx : Int) : Option (List Nat) :=
  if CommandPickItems (LoadRecentUnique histFile limit)
      (ParseAliasContent aliasContent) = [] then none
  else if selectIdx < 0 then none
  else
    match (CommandPickItems (LoadRecentUnique histFile limit)
        (ParseAliasContent aliasContent)).get? selectIdx.toNat with
    | none => none
    | some item =>
      if ContainsControlChars item.args then none else some item.args

/-- Every selectable item survives the control-character filters. -/
theorem commandPickItems_wf (entries : List HistoryEntry)
    (aliases : List (List Nat × List Nat)) :
    ∀ item ∈ CommandPickItems entries aliases,
      item.args ≠ [] ∧ ContainsControlChars item.args = false ∧
        ContainsControlChars item.display = false := by
  intro item hmem
  unfold CommandPickItems at hmem
  rcases List.mem_filterMap.mp hmem with ⟨entry, _, hf⟩
  by_cases h1 : ContainsControlChars entry.command = true
  · rw [if_pos h1] at hf
    exact absurd hf (by simp)
  · rw [if_neg h1] at hf
    by_cases h2 : ExtractArgsFromCommand entry.command = [] ∨
        ContainsControlChars (ExtractArgsFromCommand entry.command) = true
    · rw [if_pos (by exact_mod_cast h2)] at hf
      exact absurd hf (by simp)
    · rw [if_neg (by exact_mod_cast h2)] at hf
      simp only [Option.some.injEq] at hf
      subst hf
      push_neg at h2
      simp only [Bool.not_eq_true] at h1 h2
      exact ⟨h2.1, h2.2, h1⟩

/-- C10: the non-interactive pick never writes control characters to
standard output: the printed string (when any) passes the final
control-character check, and every item in the selectable list has a
non-empty, control-character-free argument string built from a
control-character-free command. -/
theorem C10_pick_no_control_output (histFile : Option (List Nat))
    (aliasContent : List Nat) (limit : Nat) (selectIdx : Int) (out : List Nat)
    (h : CommandPickNonInteractive histFile aliasContent limit selectIdx = some out) :
    ContainsControlChars out = false ∧ out ≠ [] ∧
    ∀ item ∈ CommandPickItems (LoadRecentUnique histFile limit)
        (ParseAliasContent aliasContent),
      item.args ≠ [] ∧ ContainsControlChars item.args = false ∧
        ContainsControlChars item.display = false := by
  refine ⟨?_, ?_, commandPickItems_wf _ _⟩
  · unfold CommandPickNonInteractive at h
    split at h
    · exact absurd h (by simp)
    split at h
    · exact absurd h (by simp)
    split at h
    · exact absurd h (by simp)
    rename_i item hitem
    split at h
    · exact absurd h (by simp)
    rename_i hcc
    simp only [Option.some.injEq] at h
    subst h
    simpa using hcc
  · unfold CommandPickNonInteractive at h
    split at h
    · exact absurd h (by simp)
    split at h
    · exact absurd h (by simp)
    split at h
    · exact absurd h (by simp)
    rename_i item hitem
    split at h
    · exact absurd h (by simp)
    simp only [Option.some.injEq] at h
    subst h
    exact (commandPickItems_wf _ _ item (List.get?_mem hitem)).1

/-- Witness for C10 on the spec example history. -/
theorem C10_pick_no_control_output_witness :
    CommandPickNonInteractive (some exampleHistContent) [] 10 0 =
      some (strBytes "host1") ∧
    ContainsControlChars (strBytes "host1") = false ∧ strBytes "host1" ≠ [] :=
  ⟨by decide,
   (C10_pick_no_control_output (some exampleHistContent) [] 10 0 (strBytes "host1")
      (by decide)).1,
   (C10_pick_no_control_output (some exampleHistContent) [] 10 0 (strBytes "host1")
      (by decide)).2.1⟩

/-! ## Interactive picker (tui.cpp `RunPickTui`) -/

/-- `PickUiConfig` of tui.h. -/
structure PickUiConfig where
  allow_alias_edit : Bool := false
  allow_display_toggle : Bool := true
  show_alias : Bool := false
deriving Repr

/-- Result of running the picker: terminal writes are modelled as always
succeeding, so the `kError` outcome can only arise before the loop;
`ranOut` represents the blocking read waiting forever once the modelled
input is exhausted. -/
inductive TuiOutcome where
  | selectedAt (index : Nat)
  | canceled
  | ranOut
deriving DecidableEq, Repr

/-- Terminal side effects of the picker before its read loop. -/
inductive TuiEffect where
  | openTty
  | enableRaw
  | enterScreen
  | draw
deriving DecidableEq, Repr

/-- `GetVisibleCount` of tui.cpp. -/
def GetVisibleCount (total rows : Nat) : Nat :=
  if total < (if 4 < rows then rows - 4 else if 0 < rows then 1 else 10) then total
  else if 4 < rows then rows - 4 else if 0 < rows then 1 else 10

/-- The scroll-offset adjustment after a selection change. -/
def adjustOffset (total rows selected offset : Nat) : Nat :=
  if selected < offset then selected
  else if offset + GetVisibleCount total rows ≤ selected then
    selected - GetVisibleCount total rows + 1
  else offset

instance : Inhabited PickItem := ⟨⟨[], [], [], 0, 0⟩⟩

/-- The read loop of `RunPickTui`.  State: item list (mutable through the
alias-update callback), selected index, scroll offset, `show_alias` flag,
prompt-active flag, prompt text buffer, status text, and the
clear-status-on-next-input flag; the last argument is the remaining input
byte stream.  The alias-update callback is modelled as returning only its
success bit (its error text is render-only). -/
def tuiLoop (cfg : PickUiConfig) (aliasUpdate : Option (PickItem → List Nat → Bool))
    (rows : Nat) :
    List PickItem → Nat → Nat → Bool → Bool → List Nat → List Nat → Bool →
      List Nat → TuiOutcome
  | _, _, _, _, _, _, _, _, [] => TuiOutcome.ranOut
  | items, selected, offset, showAlias, promptActive, promptInput, status,
      clearStatus, c :: input =>
    if promptActive then
      if c = 3 then
        tuiLoop cfg aliasUpdate rows items selected offset showAlias false [] status
          clearStatus input
      else if c = 13 ∨ c = 10 then
        match aliasUpdate with
        | none =>
          tuiLoop cfg aliasUpdate rows items selected offset showAlias false []
            (strBytes "alias update unavailable") true input
        | some f =>
          if ContainsControlChars (TrimSpace promptInput) then
            tuiLoop cfg aliasUpdate rows items selected offset showAlias false []
              (strBytes "alias rejected: control characters") true input
          else if f (items.getD selected default) (TrimSpace promptInput) then
            tuiLoop cfg aliasUpdate rows
              (items.set selected
                { items.getD selected default with aliasName := TrimSpace promptInput })
              selected offset showAlias false []
              (if TrimSpace promptInput = [] then strBytes "alias cleared"
               else strBytes "alias saved") true input
          else
            tuiLoop cfg aliasUpdate rows items selected offset showAlias false []
              (strBytes "alias failed") true input
      else if c = 27 then
        match input with
        | [] => TuiOutcome.ranOut
        | next :: input2 =>
          if next = 91 then
            match input2 with
            | [] => TuiOutcome.ranOut
            | _ :: input3 =>
              tuiLoop cfg aliasUpdate rows items selected offset showAlias true
                promptInput status clearStatus input3
          else
            tuiLoop cfg aliasUpdate rows items selected offset showAlias false [] status
              clearStatus input2
      else if c = 127 ∨ c = 8 then
        tuiLoop cfg aliasUpdate rows items selected offset showAlias true
          promptInput.dropLast status clearStatus input
      else if 32 ≤ c ∧ c ≠ 127 then
        tuiLoop cfg aliasUpdate rows items selected offset showAlias true
          (promptInput ++ [c]) status clearStatus input
      else
        tuiLoop cfg aliasUpdate rows items selected offset showAlias true promptInput
          status clearStatus input
    else
      if c = 3 then TuiOutcome.canceled
      else if c = 13 ∨ c = 10 then TuiOutcome.selectedAt selected
      else if (c = 110 ∨ c = 78) ∧ cfg.allow_alias_edit ∧ aliasUpdate.isSome then
        tuiLoop cfg aliasUpdate rows items selected offset showAlias true
          (items.getD selected default).aliasName
          (if clearStatus then [] else status) false input
      else if c = 83 ∧ cfg.allow_display_toggle then
        tuiLoop cfg aliasUpdate rows items selected offset (!showAlias) false
          promptInput (if clearStatus then [] else status) false input
      else if c = 27 then
        match input with
        | [] => TuiOutcome.canceled
        | next :: input2 =>
          if next = 91 then
            match input2 with
            | [] => TuiOutcome.canceled
            | code :: input3 =>
              if code = 65 then
                tuiLoop cfg aliasUpdate rows items (selected - 1)
                  (adjustOffset items.length rows (selected - 1) offset) showAlias
                  false promptInput (if clearStatus then [] else status) false input3
              else if code = 66 then
                tuiLoop cfg aliasUpdate rows items
                  (if selected + 1 < items.length then selected + 1 else selected)
                  (adjustOffset items.length rows
                    (if selected + 1 < items.length then selected + 1 else selected)
                    offset)
                  showAlias false promptInput (if clearStatus then [] else status)
                  false input3
              else if code = 90 ∧ cfg.allow_display_toggle then
                tuiLoop cfg aliasUpdate rows items selected
                  (adjustOffset items.length rows selected offset) (!showAlias) false
                  promptInput (if clearStatus then [] else status) false input3
              else
                tuiLoop cfg aliasUpdate rows items selected offset showAlias false
                  promptInput (if clearStatus then [] else status) false input3
          else TuiOutcome.canceled
      else
        tuiLoop cfg aliasUpdate rows items selected
          (adjustOffset items.length rows selected offset) showAlias false promptInput
          (if clearStatus then [] else status) false input

/-- `RunPickTui`: an empty item list short-circuits to canceled before any
terminal effect; otherwise the terminal is opened, switched to raw mode,
the alternate screen entered and an initial frame drawn, then the read
loop runs from selection 0. -/
def RunPickTui (items : List PickItem) (cfg : PickUiConfig)
    (aliasUpdate : Option (PickItem → List Nat → Bool)) (rows : Nat)
    (input : List Nat) : TuiOutcome × List TuiEffect :=
  if items = [] then (TuiOutcome.canceled, [])
  else
    (tuiLoop cfg aliasUpdate rows items 0 0 cfg.show_alias false [] [] false input,
     [TuiEffect.openTty, TuiEffect.enableRaw, TuiEffect.enterScreen, TuiEffect.draw])

/-- C8: with an empty item list the picker returns canceled with no
terminal effect at all; with a non-empty list, a first input byte of
Ctrl-C (0x03) yields canceled and a first byte of Enter (CR or LF) yields
selected at index 0, the initial selection. -/
theorem C8_picker_first_byte (items : List PickItem) (cfg : PickUiConfig)
    (aliasUpdate : Option (PickItem → List Nat → Bool)) (rows : Nat)
    (input rest : List Nat) (hne : items ≠ []) :
    RunPickTui [] cfg aliasUpdate rows input = (TuiOutcome.canceled, []) ∧
    (RunPickTui items cfg aliasUpdate rows (3 :: rest)).1 = TuiOutcome.canceled ∧
    (RunPickTui items cfg aliasUpdate rows (13 :: rest)).1 = TuiOutcome.selectedAt 0 ∧
    (RunPickTui items cfg aliasUpdate rows (10 :: rest)).1 = TuiOutcome.selectedAt 0 := by
  refine ⟨rfl, ?_, ?_, ?_⟩
  · unfold RunPickTui
    rw [if_neg hne]
    show tuiLoop cfg aliasUpdate rows items 0 0 cfg.show_alias false [] [] false
      (3 :: rest) = TuiOutcome.canceled
    rw [tuiLoop.eq_def]
    norm_num
  · unfold RunPickTui
    rw [if_neg hne]
    show tuiLoop cfg aliasUpdate rows items 0 0 cfg.show_alias false [] [] false
      (13 :: rest) = TuiOutcome.selectedAt 0
    rw [tuiLoop.eq_def]
    norm_num
  · unfold RunPickTui
    rw [if_neg hne]
    show tuiLoop cfg aliasUpdate rows items 0 0 cfg.show_alias false [] [] false
      (10 :: rest) = TuiOutcome.selectedAt 0
    rw [tuiLoop.eq_def]
    norm_num

/-- Witness for C8 at a one-item list. -/
theorem C8_picker_first_byte_witness :
    ([(⟨strBytes "ssh host1", [], strBytes "host1", 100, 1⟩ : PickItem)] ≠
      ([] : List PickItem)) ∧
    RunPickTui [] ⟨true, true, true⟩ none 24 [13] = (TuiOutcome.canceled, []) ∧
    (RunPickTui [⟨strBytes "ssh host1", [], strBytes "host1", 100, 1⟩]
      ⟨true, true, true⟩ none 24 (3 :: [])).1 = TuiOutcome.canceled ∧
    (RunPickTui [⟨strBytes "ssh host1", [], strBytes "host1", 100, 1⟩]
      ⟨true, true, true⟩ none 24 (13 :: [])).1 = TuiOutcome.selectedAt 0 :=
  ⟨by simp,
   (C8_picker_first_byte [⟨strBytes "ssh host1", [], strBytes "host1", 100, 1⟩]
      ⟨true, true, true⟩ none 24 [13] [] (by simp)).1,
   (C8_picker_first_byte [⟨strBytes "ssh host1", [], strBytes "host1", 100, 1⟩]
      ⟨true, true, true⟩ none 24 [13] [] (by simp)).2.1,
   (C8_picker_first_byte [⟨strBytes "ssh host1", [], strBytes "host1", 100, 1⟩]
      ⟨true, true, true⟩ none 24 [13] [] (by simp)).2.2.1⟩

